import Mathlib

/-!
# Verification of the TkClassWizard type-resolution and conversion core

Shallow embedding of `tkclasswiz/annotations.py` (the type resolver),
`tkclasswiz/convert.py` (the `ObjectInfo` model and the four converter
transformations) and `tkclasswiz/object_frame/frame_base.py` (`cast_type`).

Python classes are identified by natural-number ids; a class table / an
environment supplies the per-class facts the source reads through
reflection (`__wrapped__`, `isabstract`, `__subclasses__`, `__module__`,
annotation key sets, qualified names, …).
-/

namespace TkWiz

/-! ## Resolver-side class table (`annotations.py`) -/

/-- The per-class facts `convert_types` reads through reflection:
`__module__ == "builtins"`, `inspect.isabstract`, the `__wrapped__`
attribute (as the id of the wrapped class, when present), the list of
direct `__subclasses__`, and whether the class is a `typing.Generic`
respectively `Iterable` subclass (as probed by `issubclass_noexcept`). -/
structure RClassInfo where
  builtin : Bool
  abstract : Bool
  wrapped : Option Nat
  subs : List Nat
  generic : Bool
  iterable : Bool

/-- A class table: what the live Python class hierarchy looks like. -/
abbrev RTable := Nat → RClassInfo

/-- A declared annotation: a plain class, a `typing.Union[...]`, a
subscripted generic `origin[...]`, or a string (forward reference). -/
inductive PyAnn where
  | cls (c : Nat)
  | union (args : List PyAnn)
  | sub (origin : Nat) (args : List PyAnn)
  | strAnn (s : String)

/-- Boolean (structural) equality on annotations. -/
def PyAnn.beq : PyAnn → PyAnn → Bool
  | .cls a, .cls b => a == b
  | .union as, .union bs => go as bs
  | .sub a as, .sub b bs => a == b && go as bs
  | .strAnn a, .strAnn b => a == b
  | _, _ => false
where go : List PyAnn → List PyAnn → Bool
  | [], [] => true
  | x :: xs, y :: ys => PyAnn.beq x y && go xs ys
  | _, _ => false

/-- Boolean equality on annotations agrees with propositional equality. -/
def PyAnn.beq_iff : ∀ (a b : PyAnn), (PyAnn.beq a b = true) ↔ a = b := by
  intro a
  refine @PyAnn.rec (fun a => ∀ b, (PyAnn.beq a b = true) ↔ a = b)
    (fun as => ∀ bs, (PyAnn.beq.go as bs = true) ↔ as = bs)
    ?_ ?_ ?_ ?_ ?_ ?_ a
  · intro c b; cases b <;> simp [PyAnn.beq]
  · intro as ih b; cases b <;> simp [PyAnn.beq, ih]
  · intro c as ih b; cases b <;> simp [PyAnn.beq, ih]
  · intro t b; cases b <;> simp [PyAnn.beq]
  · intro bs; cases bs <;> simp [PyAnn.beq.go]
  · intro x xs ihx ihxs bs; cases bs <;> simp [PyAnn.beq.go, ihx, ihxs]

instance : DecidableEq PyAnn := fun a b => decidable_of_iff _ (PyAnn.beq_iff a b)

/-- A resolved type value: a bare class, a parameterized generic
`origin[args]` as produced by `origin[comb]` / `origin[tuple(...)]`, or
a subscripted alias passed through unresolved (the fall-through case
for a subscripted type whose origin is neither a `Generic` nor an
`Iterable` subclass). -/
inductive TyV where
  | bare (c : Nat)
  | app (c : Nat) (args : List TyV)
  | aliasTy (origin : Nat) (args : List PyAnn)

/-- Boolean equality on resolved type values (Python `==`, which for
classes and parameterized aliases is structural identity here). -/
def TyV.beq : TyV → TyV → Bool
  | .bare a, .bare b => a == b
  | .app a as, .app b bs => a == b && go as bs
  | .aliasTy a as, .aliasTy b bs => a == b && as == bs
  | _, _ => false
where go : List TyV → List TyV → Bool
  | [], [] => true
  | x :: xs, y :: ys => TyV.beq x y && go xs ys
  | _, _ => false

/-- Boolean equality on type values agrees with propositional equality. -/
def TyV.beq_iff : ∀ (a b : TyV), (TyV.beq a b = true) ↔ a = b := by
  intro a
  refine @TyV.rec (fun a => ∀ b, (TyV.beq a b = true) ↔ a = b)
    (fun as => ∀ bs, (TyV.beq.go as bs = true) ↔ as = bs)
    ?_ ?_ ?_ ?_ ?_ a
  · intro c b; cases b <;> simp [TyV.beq]
  · intro c as ih b
    cases b with
    | bare d => simp [TyV.beq]
    | app d bs => simp [TyV.beq, ih]
    | aliasTy d bs => simp [TyV.beq]
  · intro c as b; cases b <;> simp [TyV.beq]
  · intro bs; cases bs <;> simp [TyV.beq.go]
  · intro x xs ihx ihxs bs; cases bs <;> simp [TyV.beq.go, ihx, ihxs]

instance : DecidableEq TyV := fun a b => decidable_of_iff _ (TyV.beq_iff a b)

/-- Errors the resolver can raise: the `TypeError` for string
annotations, the `ValueError` a `list.remove` with a missing element
raises, and fuel exhaustion (standing for nontermination, which the
Python original would exhibit as unbounded recursion). -/
inductive RErr where
  | typeErr
  | valueErr
  | fuel
deriving DecidableEq

/-- Python `list.remove`: removes the first occurrence of `y` (the caller
checks presence; an absent element is the `ValueError` case, handled at
the call sites). -/
def removeFirst : List TyV → TyV → List TyV
  | [], _ => []
  | x :: xs, y => if x = y then xs else x :: removeFirst xs y

/-- The `tuple({a: 0 for a in r})` step: deduplicate keeping the first occurrence
of every element, preserving order (Python dict insertion order). -/
def dedupFirst (l : List TyV) : List TyV := go l []
where go : List TyV → List TyV → List TyV
  | [], _ => []
  | x :: xs, seen => if x ∈ seen then go xs seen else x :: go xs (x :: seen)

/-- The `__wrapped__` attribute of a resolved type value: present only
on bare classes that the table marks as wrappers (a parameterized alias
has no `__wrapped__`). -/
def wrappedOf (tbl : RTable) : TyV → Option Nat
  | .bare c => (tbl c).wrapped
  | _ => none

/-- Python `inspect.isabstract` on a resolved type value (`False` for a
parameterized alias, which is not a class). -/
def isAbstractTy (tbl : RTable) : TyV → Bool
  | .bare c => (tbl c).abstract
  | _ => false

/-- One iteration of the loop in `remove_classes` (annotations.py,
lines 132-140): if the current element is a wrapper whose wrapped class
is still in `r`, remove the wrapped class; if the current element is
abstract, remove it (`list.remove` raising `ValueError` when absent). -/
def rcStep (tbl : RTable) (r : List TyV) (t : TyV) : Except RErr (List TyV) :=
  let r1 := match wrappedOf tbl t with
    | some w => if (TyV.bare w) ∈ r then removeFirst r (TyV.bare w) else r
    | none => r
  if isAbstractTy tbl t then
    if t ∈ r1 then .ok (removeFirst r1 t) else .error .valueErr
  else .ok r1

/-- The loop of `remove_classes`: iterate over the original `types`
list, threading the working copy `r`. -/
def rcLoop (tbl : RTable) : List TyV → List TyV → Except RErr (List TyV)
  | [], r => .ok r
  | t :: ts, r => do rcLoop tbl ts (← rcStep tbl r t)

/-- Embedding of `remove_classes` (annotations.py, lines 130-142): drop the wrapped
class of every wrapper present, drop abstract classes, then deduplicate
preserving first-occurrence order. -/
def remove_classes (tbl : RTable) (types : List TyV) : Except RErr (List TyV) :=
  (rcLoop tbl types types).map dedupFirst

/-- Effectful map collecting results in order (the Python `for` loops
that append per-element results and propagate exceptions). -/
def mapME (f : α → Except ε β) : List α → Except ε (List β)
  | [] => .ok []
  | x :: xs => do
      let y ← f x
      let ys ← mapME f xs
      .ok (y :: ys)

/-- Effectful map in `Option` (the Python loops and comprehensions
whose per-element work may signal nontermination through exhausted
fuel). -/
def mapMO (f : α → Option β) : List α → Option (List β)
  | [] => some []
  | x :: xs => do
      let y ← f x
      let ys ← mapMO f xs
      some (y :: ys)

/-- Model of `itertools.product(*groups)`: all combinations, rightmost group
varying fastest. -/
def cartProd : List (List TyV) → List (List TyV)
  | [] => [[]]
  | g :: gs => (g.map (fun x => (cartProd gs).map (fun c => x :: c))).flatten

/-- Embedding of `convert_types` (annotations.py, lines 124-192), fuelled: the fuel
argument bounds the recursion depth (the Python original recurses
through `get_args`/`__subclasses__`; exhausted fuel stands for the
unbounded recursion a cyclic hierarchy would cause).

* a string annotation raises `TypeError`;
* a union resolves each member, applies `remove_classes` to each
  member's set, and concatenates (`chain.from_iterable`);
* a subscripted generic/iterable resolves the argument groups, resolves
  the origin class, re-parameterizes each resulting origin (Cartesian
  product for `Generic` subclasses, flattened union for plain
  iterables, bare otherwise) and applies `remove_classes`; a
  subscripted type whose origin is neither falls through to the plain
  branch (no `__subclasses__` on an alias);
* a builtin class is returned as a singleton;
* any other class is unioned with the recursive resolution of its
  direct subclasses and filtered through `remove_classes`. -/
def convert_types : Nat → RTable → PyAnn → Except RErr (List TyV)
  | 0, _, _ => .error .fuel
  | _ + 1, _, .strAnn _ => .error .typeErr
  | n + 1, tbl, .union args => do
      let parts ← mapME (fun a => do
        remove_classes tbl (← convert_types n tbl a)) args
      .ok parts.flatten
  | n + 1, tbl, .sub origin args =>
      if (tbl origin).iterable || (tbl origin).generic then do
        let parts ← mapME (fun a => do
          remove_classes tbl (← convert_types n tbl a)) args
        let origins ← convert_types n tbl (.cls origin)
        let newOrigins := (origins.map (fun o => match o with
          | .bare c =>
              if (tbl c).generic then (cartProd parts).map (TyV.app c)
              else if (tbl c).iterable then
                [if parts.isEmpty then TyV.bare c else TyV.app c parts.flatten]
              else [TyV.bare c]
          | o2 => [o2])).flatten
        remove_classes tbl newOrigins
      else
        remove_classes tbl [TyV.aliasTy origin args]
  | n + 1, tbl, .cls c =>
      if (tbl c).builtin then .ok [TyV.bare c]
      else do
        let parts ← mapME (fun s => convert_types n tbl (.cls s)) (tbl c).subs
        remove_classes tbl (TyV.bare c :: parts.flatten)

/-- Reachability: `s` is reachable from `c` by walking `__subclasses__` steps that
start at non-builtin classes (builtin classes are returned without
subclass expansion, so their subclasses are out of the expansion's
reach). -/
inductive Desc (tbl : RTable) : Nat → Nat → Prop where
  | refl (c : Nat) : Desc tbl c c
  | step {c s d : Nat} : (tbl c).builtin = false → s ∈ (tbl c).subs →
      Desc tbl s d → Desc tbl c d

/-! ## The value universe (`convert.py`)

Python values the converter manipulates: scalars, `decimal.Decimal`,
enum members (an instance characterized by its class and its underlying
`value` attribute — exactly what `EnumCls(value)` reconstructs),
containers, `ObjectInfo` instances (class id, `data` dict, `nickname`),
and references to live heap objects (`vObj i` is the object stored at
heap slot `i`; two `vObj i` are the *same* object, giving Python `is`).
Dict keys are modelled as strings (the converter only builds
string-keyed dicts). Floats are carried as the rationals they denote:
no claim here depends on IEEE rounding. -/

inductive Value where
  | vNone
  | vBool (b : Bool)
  | vInt (n : Int)
  | vFloat (q : ℚ)
  | vDecimal (q : ℚ)
  | vStr (s : String)
  | vEnum (cls : Nat) (val : Value)
  | vList (xs : List Value)
  | vTuple (xs : List Value)
  | vSet (xs : List Value)
  | vDict (entries : List (String × Value))
  | vObjectInfo (cls : Nat) (data : List (String × Value)) (nick : Option String)
  | vObj (i : Nat)

/-- The per-class facts the converter reads: the qualified name
`f"{cls.__module__}.{cls.__name__}"` used by the dict encoding, whether
the class is an `Enum` subclass, the key set of `get_annotations(cls)`
(the merged reflected and registered constructor annotations), whether
`cls.__name__ in __builtins__`, and `len(signature(cls).parameters)`
(`none` when `signature` raises `ValueError`). -/
structure CClassInfo where
  qualname : String
  isEnum : Bool
  annKeys : List String
  builtinName : Bool
  sigParams : Option Nat

/-- One value of the `CONVERSION_ATTR_TO_PARAM` rule mapping: a plain
attribute name, or a getter callable applied to the object. -/
inductive ConvSrc where
  | attr (s : String)
  | getter (f : Value → Option Value)

/-- A live Python object: its class and its readable attributes
(an attribute absent from the list is a failing read, swallowed by
`suppress(Exception)`). -/
structure PyObj where
  cls : Nat
  attrs : List (String × Value)

/-- The live-object heap; `Value.vObj i` references slot `i`. -/
abbrev Heap := List PyObj

/-- The converter's environment: class facts, the import table backing
`import_class`, the `CONVERSION_ATTR_TO_PARAM` registry (`none` = class
not registered, fall back to the annotation keys), constructor-call
semantics for `convert_to_objects` (`none` = the constructor rejects
the arguments), and the id of the builtin `dict` class. -/
structure CEnv where
  classes : Nat → CClassInfo
  importTable : List (String × Nat)
  convRules : Nat → Option (List (String × ConvSrc))
  ctor : Nat → List (String × Value) → Option Value
  dictId : Nat

/-- Python dict key lookup (`d[k]`-style; `none` models `KeyError`). -/
def lookupKey (k : String) : List (String × Value) → Option Value
  | [] => none
  | (k2, v) :: rest => if k2 = k then some v else lookupKey k rest

/-- Model of `dict.pop(k, None)`: drop the key `k` from a rule mapping. -/
def eraseKey (k : String) : List (String × ConvSrc) → List (String × ConvSrc)
  | [] => []
  | (k2, v) :: rest =>
      if k2 = k then eraseKey k rest else (k2, v) :: eraseKey k rest

/-! ## `ObjectInfo.__hash__` -/

/-- In Python `dict.__hash__` is `None`: hashing a dict raises
`TypeError` regardless of what the dict contains. -/
def dictHash (_ : List (String × Value)) : Option Int := none

/-- Python `hash()` on the modelled values; `none` models the
`TypeError` of an unhashable value. The concrete integers returned for
hashable values are nominal — only definedness matters here. -/
def pyHash : Value → Option Int
  | .vNone => some 0
  | .vBool b => some (if b then 1 else 0)
  | .vInt n => some n
  | .vFloat q => some q.num
  | .vDecimal q => some q.num
  | .vStr s => some (Int.ofNat s.length)
  | .vEnum c _ => some (Int.ofNat c)
  | .vList _ => none
  | .vTuple xs => goT xs
  | .vSet _ => none
  | .vDict es => dictHash es
  | .vObjectInfo _ data _ => some ((dictHash data).getD (-1))
  | .vObj i => some (Int.ofNat i)
where goT : List Value → Option Int
  | [] => some 3
  | x :: xs => do
      let h ← pyHash x
      let r ← goT xs
      some (h + 7 * r)

/-- Embedding of `ObjectInfo.__hash__` (convert.py, lines 149-156): try
`hash(self.data)` and memoize it, falling back to `-1` when a
`TypeError` is raised; the observable result of every call is this
value (`self.data` is the `data` dict). -/
def ObjectInfo_hash (data : List (String × Value)) : Int :=
  (dictHash data).getD (-1)

/-! ## Dict encoding: `convert_to_dict` / `convert_from_dict` -/

/-- Modelled from the spec: `import_class` (from
`tkclasswiz.utilities`, whose source file is not in the repository
snapshot) looks the named type up "via a qualified-name import";
modelled as a lookup in the environment's import table, with `none`
standing for the `UnknownTypeReference` failure. -/
def importClass (env : CEnv) (s : String) : Option Nat :=
  go env.importTable
where go : List (String × Nat) → Option Nat
  | [] => none
  | (k, c) :: rest => if k = s then some c else go rest

/-- The `"nickname"` slot of the encoding: `None` or the string. -/
def nickVal : Option String → Value
  | none => Value.vNone
  | some s => Value.vStr s

/-- Reading `d.get("nickname")` back into the constructor's
`Optional[str]` parameter. -/
def decodeNick (es : List (String × Value)) : Option String :=
  match lookupKey "nickname" es with
  | some (Value.vStr s) => some s
  | _ => none

/-- The call `type_(d["value"])`: the one-argument constructor call performed by
`convert_from_dict` for an `Enum` (or other single-value) payload; for
the enum classes the encoder produces, calling the class with the
stored underlying value yields the member with that value. -/
def callOneArg (cls : Nat) (v : Value) : Value := Value.vEnum cls v

/-- Errors `convert_from_dict` can raise: fuel exhaustion, `KeyError`
(missing `"type"`/`"data"`), `AttributeError` (`d["data"]` is not a
dict), and the `UnknownTypeReference` import failure. -/
inductive DErr where
  | fuel
  | keyErr
  | attrErr
  | importErr
deriving DecidableEq

/-- A `warnings.warn` record emitted by `convert_from_dict`: the stale
parameter name and the class it does not exist in. -/
abbrev Warn := String × Nat

/-- Embedding of `convert_to_dict` (convert.py, lines 389-405), fuelled (every
recursive call decrements; `none` is exhausted fuel and never occurs
with fuel above the value's size). An `ObjectInfo` becomes
`{"type": qualname, "data": {...}, "nickname": ...}` with the data
values encoded recursively; a list maps elementwise; an `Enum` member
becomes `{"type": qualname, "value": value}` with the underlying value
stored raw; everything else passes through unchanged. -/
def convert_to_dict (env : CEnv) : Nat → Value → Option Value
  | 0, _ => none
  | n + 1, d =>
    match d with
    | .vObjectInfo cls data nick => do
        let dataConv ← mapMO (fun kv : String × Value => do
          let v2 ← convert_to_dict env n kv.2
          some (kv.1, v2)) data
        some (.vDict [("type", .vStr (env.classes cls).qualname),
                      ("data", .vDict dataConv),
                      ("nickname", nickVal nick)])
    | .vList xs => do
        let ys ← mapMO (fun x => convert_to_dict env n x) xs
        some (.vList ys)
    | .vEnum cls v =>
        some (.vDict [("type", .vStr (env.classes cls).qualname),
                      ("value", v)])
    | v => some v

/-- The `for k, v in d["data"].items()` loop of `convert_from_dict`: a
key kept by `keep` (membership in the current annotations) is decoded
by `f` and kept; any other key is dropped with one warning naming it
and the class. -/
def cfdData (keep : String → Bool) (f : Value → Except DErr (Value × List Warn))
    (cls : Nat) : List (String × Value) →
    Except DErr (List (String × Value) × List Warn)
  | [] => .ok ([], [])
  | (k, v) :: rest =>
      if keep k then do
        let (v2, w) ← f v
        let (r2, ws) ← cfdData keep f cls rest
        .ok ((k, v2) :: r2, w ++ ws)
      else do
        let (r2, ws) ← cfdData keep f cls rest
        .ok (r2, (k, cls) :: ws)

/-- The element loop of `convert_from_dict` over a list, collecting the
decoded elements and the emitted warnings in order. -/
def cfdList (f : Value → Except DErr (Value × List Warn)) :
    List Value → Except DErr (List Value × List Warn)
  | [] => .ok ([], [])
  | x :: xs => do
      let (v, w) ← f x
      let (vs, ws) ← cfdList f xs
      .ok (v :: vs, w ++ ws)

/-- Embedding of `convert_from_dict` (convert.py, lines 409-435), fuelled; returns
the decoded value together with the list of `warnings.warn` records
emitted, in order. A list decodes elementwise; a dict is an encoded
node: its `"type"` is imported, a `"value"` payload is reconstructed by
a one-argument call, otherwise the `"data"` entries are decoded keeping
exactly the keys present in the current annotations of the imported
class — an absent key is dropped with one warning; everything else
passes through unchanged. -/
def convert_from_dict (env : CEnv) : Nat → Value → Except DErr (Value × List Warn)
  | 0, _ => .error .fuel
  | n + 1, d =>
    match d with
    | .vList xs => do
        let (vs, ws) ← cfdList (fun x => convert_from_dict env n x) xs
        .ok (.vList vs, ws)
    | .vDict es =>
        match lookupKey "type" es with
        | none => .error .keyErr
        | some (Value.vStr ts) =>
            match importClass env ts with
            | none => .error .importErr
            | some cls =>
                match lookupKey "value" es with
                | some v => .ok (callOneArg cls v, [])
                | none =>
                    match lookupKey "data" es with
                    | none => .error .keyErr
                    | some (Value.vDict dataEs) => do
                        let (dataC, ws) ← cfdData
                          (fun k => (env.classes cls).annKeys.contains k)
                          (fun x => convert_from_dict env n x) cls dataEs
                        .ok (.vObjectInfo cls dataC (decodeNick es), ws)
                    | some _ => .error .attrErr
        | some _ => .error .importErr
    | v => .ok (v, [])

/-- The `ObjectInfo` trees the round-trip law quantifies over: built
only from the scalar primitives, enum members, lists, and `ObjectInfo`
nodes — with each mentioned class recoverable by `import_class` from
its stored qualified name, and each `ObjectInfo` node's data keys all
present in its class's current annotations. -/
inductive WFTree (env : CEnv) : Value → Prop where
  | wfNone : WFTree env .vNone
  | wfBool (b : Bool) : WFTree env (.vBool b)
  | wfInt (n : Int) : WFTree env (.vInt n)
  | wfFloat (q : ℚ) : WFTree env (.vFloat q)
  | wfDecimal (q : ℚ) : WFTree env (.vDecimal q)
  | wfStr (s : String) : WFTree env (.vStr s)
  | wfEnum (cls : Nat) (v : Value) :
      importClass env (env.classes cls).qualname = some cls →
      WFTree env (.vEnum cls v)
  | wfList (xs : List Value) : (∀ x ∈ xs, WFTree env x) →
      WFTree env (.vList xs)
  | wfObjInfo (cls : Nat) (data : List (String × Value)) (nick : Option String) :
      importClass env (env.classes cls).qualname = some cls →
      (∀ kv ∈ data, (env.classes cls).annKeys.contains kv.1) →
      (∀ kv ∈ data, WFTree env kv.2) →
      WFTree env (.vObjectInfo cls data nick)

/-! ## Decomposition: `convert_to_object_info` -/

/-- The singleton test of `_convert_object_info` on a class:
`type_value.__name__ not in __builtins__ and
not len(signature(type_value).parameters)`; a `ValueError` from
`signature` is suppressed (no skip). -/
def skipCls (env : CEnv) (c : Nat) : Bool :=
  !(env.classes c).builtinName && ((env.classes c).sigParams == some 0)

/-- The singleton test applied to a read value: consult the class of a
heap object or of an enum member; values of builtin-named types are
never skipped. -/
def typeSkipSingleton (env : CEnv) (heap : Heap) (v : Value) : Bool :=
  match v with
  | .vObj i =>
      match heap[i]? with
      | some o => skipCls env o.cls
      | none => false
  | .vEnum c _ => skipCls env c
  | _ => false

/-- One attribute-source read of `_convert_object_info`:
`v(object_)` when the registered rule value is callable, else
`getattr(object_, v)` (a `none` is the failing read that
`suppress(Exception)` swallows). -/
def readSrc (o : PyObj) (i : Nat) : ConvSrc → Option Value
  | .attr s => lookupKey s o.attrs
  | .getter f => f (.vObj i)

/-- The attribute loop of `_convert_object_info` (convert.py, lines
293-315) while decomposing heap object `i` (= `object_`): read each
source through `read` under `suppress(Exception)` — a failed read
skips the entry; skip values whose type is a non-builtin singleton
(`skip`); store a value identical to `object_` raw (the cycle guard
`value is object_`); recurse through `f` into everything else. -/
def ctoiAttrLoop (i : Nat) (read : ConvSrc → Option Value)
    (skip : Value → Bool) (f : Value → Option Value) :
    List (String × ConvSrc) → Option (List (String × Value))
  | [] => some []
  | (k, src) :: rest =>
      match read src with
      | none => ctoiAttrLoop i read skip f rest
      | some v =>
          if skip v then ctoiAttrLoop i read skip f rest
          else match v with
            | .vObj j =>
                if j = i then do
                  let r ← ctoiAttrLoop i read skip f rest
                  some ((k, v) :: r)
                else do
                  let v2 ← f v
                  let r ← ctoiAttrLoop i read skip f rest
                  some ((k, v2) :: r)
            | _ => do
                let v2 ← f v
                let r ← ctoiAttrLoop i read skip f rest
                some ((k, v2) :: r)

/-- Embedding of `convert_to_object_info` (convert.py, lines 284-344), fuelled
(exhausted fuel — `none` — models the unbounded recursion a cyclic
structure not caught by the identity guard would cause). Scalars and
enum members pass through, with `decimal.Decimal` converted to
`float`; sets, lists and tuples map to a plain list; a dict becomes an
`ObjectInfo(dict, ...)`; a heap object is decomposed through its
conversion-rule mapping (`CONVERSION_ATTR_TO_PARAM`, else the
annotation keys read under the same name) with `"return"` popped. An
`ObjectInfo` instance fed back in would read its `class_` attribute, a
type object outside the modelled value universe; that input is left
undefined here (no claim concerns it). -/
def convert_to_object_info (env : CEnv) (heap : Heap) : Nat → Value → Option Value
  | 0, _ => none
  | n + 1, object =>
    match object with
    | .vInt _ => some object
    | .vFloat _ => some object
    | .vStr _ => some object
    | .vBool _ => some object
    | .vNone => some object
    | .vDecimal q => some (.vFloat q)
    | .vEnum _ _ => some object
    | .vSet xs =>
        (mapMO (fun x => convert_to_object_info env heap n x) xs).map .vList
    | .vList xs =>
        (mapMO (fun x => convert_to_object_info env heap n x) xs).map .vList
    | .vTuple xs =>
        (mapMO (fun x => convert_to_object_info env heap n x) xs).map .vList
    | .vDict es =>
        (mapMO (fun kv : String × Value => do
          let v2 ← convert_to_object_info env heap n kv.2
          some (kv.1, v2)) es).map
          (fun es2 => .vObjectInfo env.dictId es2 none)
    | .vObjectInfo _ _ _ => none
    | .vObj i =>
        match heap[i]? with
        | none => none
        | some o =>
            let rules := match env.convRules o.cls with
              | some m => m
              | none => (env.classes o.cls).annKeys.map
                  (fun k => (k, ConvSrc.attr k))
            (ctoiAttrLoop i (readSrc o i)
              (typeSkipSingleton env heap)
              (fun v => convert_to_object_info env heap n v)
              (eraseKey "return" rules)).map
              (fun dataC => .vObjectInfo o.cls dataC none)

/-! ## Materialization: `convert_to_objects` -/

/-- Errors of `convert_to_objects`: fuel exhaustion and the
`ConstructionError` of a constructor rejecting its arguments
(propagated, not swallowed). -/
inductive CoErr where
  | fuel
  | constructionErr
deriving DecidableEq

/-- Embedding of `convert_to_objects` (convert.py, lines 352-386), fuelled. A list,
tuple or set materializes to a plain list of materialized elements; an
`ObjectInfo` materializes its container/`ObjectInfo`/dict data values
first (raw values pass through) and calls the class constructor with
them; a dict maps its values; anything else passes through. -/
def convert_to_objects (env : CEnv) : Nat → Value → Except CoErr Value
  | 0, _ => .error .fuel
  | n + 1, d =>
    match d with
    | .vList xs => do
        .ok (.vList (← mapME (fun x => convert_to_objects env n x) xs))
    | .vTuple xs => do
        .ok (.vList (← mapME (fun x => convert_to_objects env n x) xs))
    | .vSet xs => do
        .ok (.vList (← mapME (fun x => convert_to_objects env n x) xs))
    | .vObjectInfo cls data _ => do
        let dataConv ← mapME (fun kv : String × Value =>
          match kv.2 with
          | .vList _ => do .ok (kv.1, ← convert_to_objects env n kv.2)
          | .vTuple _ => do .ok (kv.1, ← convert_to_objects env n kv.2)
          | .vSet _ => do .ok (kv.1, ← convert_to_objects env n kv.2)
          | .vObjectInfo _ _ _ => do .ok (kv.1, ← convert_to_objects env n kv.2)
          | .vDict _ => do .ok (kv.1, ← convert_to_objects env n kv.2)
          | v => .ok (kv.1, v)) data
        match env.ctor cls dataConv with
        | some obj => .ok obj
        | none => .error .constructionErr
    | .vDict es => do
        .ok (.vDict (← mapME (fun kv : String × Value => do
          .ok (kv.1, ← convert_to_objects env n kv.2)) es))
    | v => .ok v

/-! ## `cast_type` (object_frame/frame_base.py, lines 154-180)

The candidate types `cast_type` receives: the builtin types whose
constructors the model implements (`int`, `float`, `str`, `bool` and
the special-cased `dict`), plus non-builtin classes (which the
`t.__module__ == "builtins"` filter drops before any cast attempt). -/

inductive PyTy where
  | intT
  | floatT
  | strT
  | boolT
  | dictT
  | customT (c : Nat)
deriving DecidableEq

/-- The test `t.__module__ == "builtins"` on a candidate type. -/
def pyTyBuiltin : PyTy → Bool
  | .customT _ => false
  | _ => true

/-- The whitespace characters `str.strip` removes. -/
def isPySpace (c : Char) : Bool :=
  c = ' ' || c = '\t' || c = '\n' || c = '\r' || c = '\x0b' || c = '\x0c'

/-- Model of `str.strip()` at the character level (the `String.trim` of the
standard library is not used so that everything reduces in the
kernel). -/
def trimChars (cs : List Char) : List Char :=
  ((cs.dropWhile isPySpace).reverse.dropWhile isPySpace).reverse

/-- Accumulate decimal digits; fails on the first non-digit. -/
def pyDigitsAux : List Char → Nat → Option Nat
  | [], acc => some acc
  | c :: cs, acc =>
      if c.isDigit then pyDigitsAux cs (acc * 10 + (c.toNat - 48)) else none

/-- A nonempty run of decimal digits as a number. -/
def pyDigits : List Char → Option Nat
  | [] => none
  | cs => pyDigitsAux cs 0

/-- Model of `int(s)` on a string: surrounding whitespace stripped, optional
sign, then decimal digits (digit-group underscores are not modelled);
`none` is the `ValueError` Python raises otherwise. -/
def pyIntOfStr (s : String) : Option Int :=
  match trimChars s.toList with
  | '+' :: rest => (pyDigits rest).map Int.ofNat
  | '-' :: rest => (pyDigits rest).map (fun k => -(Int.ofNat k))
  | rest => (pyDigits rest).map Int.ofNat

/-- The unsigned core of `float(s)`: `digits`, `digits.`, `.digits` or
`digits.digits` (exponents, `inf` and `nan` are modelled as rejected —
no claim exercises them). -/
def pyFloatCore (cs : List Char) : Option ℚ :=
  match cs.splitOn '.' with
  | [ip] => (pyDigits ip).map (fun k => mkRat (Int.ofNat k) 1)
  | [[], []] => none
  | [ip, fp] => do
      let ipv ← if ip.isEmpty then some 0 else pyDigits ip
      let fpv ← if fp.isEmpty then some 0 else pyDigits fp
      some (mkRat (Int.ofNat (ipv * 10 ^ fp.length + fpv)) (10 ^ fp.length))
  | _ => none

/-- Model of `float(s)` on a string: whitespace stripped, optional sign, core. -/
def pyFloatOfStr (s : String) : Option ℚ :=
  match trimChars s.toList with
  | '+' :: rest => pyFloatCore rest
  | '-' :: rest => (pyFloatCore rest).map Neg.neg
  | rest => pyFloatCore rest

/-- Model of `int()` applied to a float/Decimal value: truncation toward zero. -/
def intTrunc (q : ℚ) : Int := q.num.tdiv q.den

/-- Model of `str()` of a value, modelled for the values `cast_type` receives
(user-entered strings and scalars); the rendering of floats and
containers is not consulted by any claim and is left as `""`. -/
def pyStr : Value → String
  | .vStr s => s
  | .vBool b => if b then "True" else "False"
  | .vNone => "None"
  | .vInt n => toString n
  | _ => ""

/-- Python truthiness, as `bool()` computes it. -/
def pyTruthy : Value → Bool
  | .vNone => false
  | .vBool b => b
  | .vInt n => n != 0
  | .vFloat q => q != 0
  | .vDecimal q => q != 0
  | .vStr s => !s.isEmpty
  | .vList xs => !xs.isEmpty
  | .vTuple xs => !xs.isEmpty
  | .vSet xs => !xs.isEmpty
  | .vDict es => !es.isEmpty
  | .vEnum _ _ => true
  | .vObjectInfo _ _ _ => true
  | .vObj _ => true

/-- Model of `json.loads`, modelled on the scalar fragment: `null`, `true`,
`false`, integers, and simple quoted strings without escapes; `none`
models a parse failure. -/
def jsonLoads (s : String) : Option Value :=
  let t := String.mk (trimChars s.toList)
  if t = "null" then some .vNone
  else if t = "true" then some (.vBool true)
  else if t = "false" then some (.vBool false)
  else match pyIntOfStr t with
    | some k => some (.vInt k)
    | none =>
        match t.toList with
        | '"' :: rest =>
            if rest.getLast? = some '"' then
              let inner := rest.dropLast
              if inner.all (fun c => c ≠ '"' && c ≠ '\\') then
                some (.vStr (String.mk inner))
              else none
            else none
        | _ => none

/-- One cast attempt `type_(value)` (or the registered `CAST_FUNTIONS`
entry for `dict`, which parses JSON and decomposes the result); `none`
models the exception `suppress(Exception)` swallows. -/
def castCall (env : CEnv) (heap : Heap) (n : Nat) : PyTy → Value → Option Value
  | .intT, v =>
      match v with
      | .vInt k => some (.vInt k)
      | .vBool b => some (.vInt (if b then 1 else 0))
      | .vFloat q => some (.vInt (intTrunc q))
      | .vDecimal q => some (.vInt (intTrunc q))
      | .vStr s => (pyIntOfStr s).map .vInt
      | _ => none
  | .floatT, v =>
      match v with
      | .vInt k => some (.vFloat (mkRat k 1))
      | .vBool b => some (.vFloat (mkRat (if b then 1 else 0) 1))
      | .vFloat q => some (.vFloat q)
      | .vDecimal q => some (.vFloat q)
      | .vStr s => (pyFloatOfStr s).map .vFloat
      | _ => none
  | .strT, v => some (.vStr (pyStr v))
  | .boolT, v => some (.vBool (pyTruthy v))
  | .dictT, v =>
      match v with
      | .vStr s => (jsonLoads s).bind (convert_to_object_info env heap n)
      | _ => none
  | .customT _, _ => none

/-- Embedding of `NewObjectFrameBase.cast_type` (frame_base.py, lines 154-180): walk
the candidates whose `__module__` is `"builtins"` in order, return the
first successful conversion, raise `TypeError` (the `for`/`else`
branch) when every candidate fails. -/
def cast_type (env : CEnv) (heap : Heap) (n : Nat) (value : Value)
    (types : List PyTy) : Except String Value :=
  go (types.filter pyTyBuiltin)
where go : List PyTy → Except String Value
  | [] => .error "Could not convert value to any of accepted types."
  | t :: rest =>
      match castCall env heap n t value with
      | some v2 => .ok v2
      | none => go rest

/-- The values `convert_from_dict` passes through unchanged: everything
that is neither a list nor a dict (the only two shapes it inspects). -/
def rawPass : Value → Bool
  | .vList _ => false
  | .vDict _ => false
  | _ => true

/-- The scalar values of the self-reference scenario: every one
converts to itself (or its `float` image) in one step and is never
singleton-skipped. -/
def scalarPass : Value → Bool
  | .vInt _ => true
  | .vFloat _ => true
  | .vStr _ => true
  | .vBool _ => true
  | .vNone => true
  | .vDecimal _ => true
  | _ => false

/-! ## Lemmas: `removeFirst`, `dedupFirst` -/

theorem removeFirst_sublist (l : List TyV) (y : TyV) :
    List.Sublist (removeFirst l y) l := by
  induction l with
  | nil => simp [removeFirst]
  | cons x xs ih =>
    simp only [removeFirst]
    split
    · exact List.sublist_cons_self x xs
    · exact ih.cons₂ x

theorem not_mem_removeFirst_self {l : List TyV} {y : TyV} (h : l.Nodup) :
    y ∉ removeFirst l y := by
  induction l with
  | nil => simp [removeFirst]
  | cons x xs ih =>
    simp only [removeFirst]
    split
    · rename_i hxy
      subst hxy
      exact (List.nodup_cons.mp h).1
    · rename_i hxy
      simp only [List.mem_cons, not_or]
      exact ⟨fun hyx => hxy hyx.symm, ih (List.nodup_cons.mp h).2⟩

theorem mem_removeFirst_of_ne {l : List TyV} {x y : TyV} (hx : x ∈ l)
    (hne : x ≠ y) : x ∈ removeFirst l y := by
  induction l with
  | nil => simp at hx
  | cons a xs ih =>
    simp only [removeFirst]
    split
    · rename_i hay
      subst hay
      rcases List.mem_cons.mp hx with h1 | h1
      · exact absurd h1 hne
      · exact h1
    · rcases List.mem_cons.mp hx with h1 | h1
      · exact h1 ▸ List.mem_cons_self a _
      · exact List.mem_cons_of_mem a (ih h1)

theorem removeFirst_append_of_not_mem {pre : List TyV} {y : TyV}
    (h : y ∉ pre) (rest : List TyV) :
    removeFirst (pre ++ y :: rest) y = pre ++ rest := by
  induction pre with
  | nil => simp [removeFirst]
  | cons a pre ih =>
    have hay : a ≠ y := fun hh => h (hh ▸ List.mem_cons_self a pre)
    simp only [List.cons_append, removeFirst, if_neg hay]
    show a :: removeFirst (pre ++ y :: rest) y = a :: (pre ++ rest)
    rw [ih (fun hm => h (List.mem_cons_of_mem a hm))]

theorem mem_dedupFirst_go (l : List TyV) :
    ∀ (seen : List TyV) (x : TyV),
      x ∈ dedupFirst.go l seen ↔ (x ∈ l ∧ x ∉ seen) := by
  induction l with
  | nil => intro seen x; simp [dedupFirst.go]
  | cons a xs ih =>
    intro seen x
    simp only [dedupFirst.go]
    split
    · rename_i ha
      rw [ih]
      simp only [List.mem_cons]
      constructor
      · rintro ⟨h1, h2⟩; exact ⟨Or.inr h1, h2⟩
      · rintro ⟨h1 | h1, h2⟩
        · exact absurd (h1 ▸ ha) h2
        · exact ⟨h1, h2⟩
    · rename_i ha
      simp only [List.mem_cons, ih, List.mem_cons, not_or]
      by_cases hxa : x = a
      · subst hxa; simp [ha]
      · simp [hxa]

theorem nodup_dedupFirst_go (l : List TyV) :
    ∀ seen : List TyV, (dedupFirst.go l seen).Nodup := by
  induction l with
  | nil => intro seen; simp [dedupFirst.go]
  | cons a xs ih =>
    intro seen
    simp only [dedupFirst.go]
    split
    · exact ih seen
    · refine List.nodup_cons.mpr ⟨fun hm => ?_, ih (a :: seen)⟩
      exact ((mem_dedupFirst_go xs (a :: seen) a).mp hm).2 (List.mem_cons_self a seen)

theorem mem_dedupFirst {l : List TyV} {x : TyV} :
    x ∈ dedupFirst l ↔ x ∈ l := by
  simp [dedupFirst, mem_dedupFirst_go]

theorem nodup_dedupFirst (l : List TyV) : (dedupFirst l).Nodup :=
  nodup_dedupFirst_go l []

/-! ## Lemmas: `rcStep`, `rcLoop`, `remove_classes` -/

theorem rcStep_ok_sublist {tbl : RTable} {r : List TyV} {t : TyV}
    {r2 : List TyV} (h : rcStep tbl r t = .ok r2) : List.Sublist r2 r := by
  have base : ∀ r1 : List TyV, List.Sublist r1 r →
      (if isAbstractTy tbl t then
        if t ∈ r1 then Except.ok (removeFirst r1 t)
        else Except.error RErr.valueErr
       else Except.ok r1) = Except.ok r2 → List.Sublist r2 r := by
    intro r1 hsub hh
    split at hh
    · split at hh
      · cases hh; exact (removeFirst_sublist r1 t).trans hsub
      · cases hh
    · cases hh; exact hsub
  simp only [rcStep] at h
  cases hw : wrappedOf tbl t with
  | none =>
    simp only [hw] at h
    exact base r (List.Sublist.refl r) h
  | some w =>
    simp only [hw] at h
    by_cases hmem : TyV.bare w ∈ r
    · rw [if_pos hmem] at h
      exact base _ (removeFirst_sublist r _) h
    · rw [if_neg hmem] at h
      exact base r (List.Sublist.refl r) h

theorem rcLoop_ok_sublist {tbl : RTable} {ts : List TyV} :
    ∀ {r r2 : List TyV}, rcLoop tbl ts r = .ok r2 → List.Sublist r2 r := by
  induction ts with
  | nil =>
    intro r r2 h
    simp only [rcLoop] at h
    cases h; exact List.Sublist.refl _
  | cons t ts ih =>
    intro r r2 h
    simp only [rcLoop] at h
    cases hstep : rcStep tbl r t with
    | error e =>
      rw [hstep] at h
      exact ((Except.error e).noConfusion
        (show (Except.error e : Except RErr (List TyV)) = .ok r2 from h))
    | ok r1 =>
      rw [hstep] at h
      replace h : rcLoop tbl ts r1 = Except.ok r2 := h
      exact (ih h).trans (rcStep_ok_sublist hstep)

theorem rcStep_ok_of_not_abstract {tbl : RTable} {t : TyV}
    (habs : isAbstractTy tbl t = false) (r : List TyV) :
    ∃ r2, rcStep tbl r t = .ok r2 := by
  simp only [rcStep, habs, Bool.false_eq_true, if_false]
  exact ⟨_, rfl⟩

theorem rcLoop_ok_of_no_abstract {tbl : RTable} {ts : List TyV}
    (habs : ∀ t ∈ ts, isAbstractTy tbl t = false) :
    ∀ r : List TyV, ∃ r2, rcLoop tbl ts r = .ok r2 := by
  induction ts with
  | nil => intro r; exact ⟨r, rfl⟩
  | cons t ts ih =>
    intro r
    obtain ⟨r1, h1⟩ := rcStep_ok_of_not_abstract
      (habs t (List.mem_cons_self t ts)) r
    obtain ⟨r2, h2⟩ := ih (fun u hu => habs u (List.mem_cons_of_mem t hu)) r1
    refine ⟨r2, ?_⟩
    simp only [rcLoop, h1]
    exact h2

theorem rcStep_wrapped_not_mem {tbl : RTable} {r : List TyV} {t : TyV}
    {r2 : List TyV} {c : Nat} (h : rcStep tbl r t = .ok r2)
    (hw : wrappedOf tbl t = some c) (hnd : r.Nodup) :
    TyV.bare c ∉ r2 := by
  have key : ∀ r1 : List TyV, TyV.bare c ∉ r1 →
      (if isAbstractTy tbl t then
        if t ∈ r1 then Except.ok (removeFirst r1 t)
        else Except.error RErr.valueErr
       else Except.ok r1) = Except.ok r2 → TyV.bare c ∉ r2 := by
    intro r1 hnmem hh
    split at hh
    · split at hh
      · cases hh
        exact fun hm => hnmem ((removeFirst_sublist r1 t).subset hm)
      · cases hh
    · cases hh; exact hnmem
  simp only [rcStep] at h
  simp only [hw] at h
  by_cases hmem : TyV.bare c ∈ r
  · rw [if_pos hmem] at h
    exact key _ (not_mem_removeFirst_self hnd) h
  · rw [if_neg hmem] at h
    exact key r hmem h

theorem rcLoop_wrapped_excluded {tbl : RTable} {ts : List TyV} :
    ∀ {r r2 : List TyV} {t : TyV} {c : Nat},
      rcLoop tbl ts r = .ok r2 → r.Nodup → t ∈ ts →
      wrappedOf tbl t = some c → TyV.bare c ∉ r2 := by
  induction ts with
  | nil => intro r r2 t c _ _ ht; simp at ht
  | cons t0 ts ih =>
    intro r r2 t c h hnd ht hw
    simp only [rcLoop] at h
    cases hstep : rcStep tbl r t0 with
    | error e =>
      rw [hstep] at h
      exact ((Except.error e).noConfusion
        (show (Except.error e : Except RErr (List TyV)) = .ok r2 from h))
    | ok r1 =>
      rw [hstep] at h
      replace h : rcLoop tbl ts r1 = Except.ok r2 := h
      rcases List.mem_cons.mp ht with h1 | h1
      · subst h1
        have hnm := rcStep_wrapped_not_mem hstep hw hnd
        exact fun hm => hnm ((rcLoop_ok_sublist h).subset hm)
      · exact ih h (hnd.sublist (rcStep_ok_sublist hstep)) h1 hw

theorem rcStep_mem_preserved {tbl : RTable} {r : List TyV} {t : TyV}
    {r2 : List TyV} {x : TyV} (h : rcStep tbl r t = .ok r2) (hx : x ∈ r)
    (hxab : isAbstractTy tbl x = false)
    (hxw : ∀ w, wrappedOf tbl t = some w → TyV.bare w ≠ x) : x ∈ r2 := by
  have key : ∀ r1 : List TyV, x ∈ r1 →
      (if isAbstractTy tbl t then
        if t ∈ r1 then Except.ok (removeFirst r1 t)
        else Except.error RErr.valueErr
       else Except.ok r1) = Except.ok r2 → x ∈ r2 := by
    intro r1 hmem hh
    split at hh
    · rename_i habs
      split at hh
      · cases hh
        refine mem_removeFirst_of_ne hmem fun hxt => ?_
        rw [hxt] at hxab
        rw [hxab] at habs
        cases habs
      · cases hh
    · cases hh; exact hmem
  simp only [rcStep] at h
  cases hw : wrappedOf tbl t with
  | none =>
    simp only [hw] at h
    exact key r hx h
  | some w =>
    simp only [hw] at h
    by_cases hmem : TyV.bare w ∈ r
    · rw [if_pos hmem] at h
      exact key _ (mem_removeFirst_of_ne hx (fun he => hxw w hw he.symm)) h
    · rw [if_neg hmem] at h
      exact key r hx h

theorem rcLoop_mem_preserved {tbl : RTable} {ts : List TyV} :
    ∀ {r r2 : List TyV} {x : TyV},
      rcLoop tbl ts r = .ok r2 → x ∈ r → isAbstractTy tbl x = false →
      (∀ t ∈ ts, ∀ w, wrappedOf tbl t = some w → TyV.bare w ≠ x) →
      x ∈ r2 := by
  induction ts with
  | nil =>
    intro r r2 x h hx _ _
    simp only [rcLoop] at h
    cases h; exact hx
  | cons t0 ts ih =>
    intro r r2 x h hx hxab hxw
    simp only [rcLoop] at h
    cases hstep : rcStep tbl r t0 with
    | error e =>
      rw [hstep] at h
      exact ((Except.error e).noConfusion
        (show (Except.error e : Except RErr (List TyV)) = .ok r2 from h))
    | ok r1 =>
      rw [hstep] at h
      replace h : rcLoop tbl ts r1 = Except.ok r2 := h
      exact ih h (rcStep_mem_preserved hstep hx hxab
        (hxw t0 (List.mem_cons_self t0 ts))) hxab
        (fun u hu => hxw u (List.mem_cons_of_mem t0 hu))

theorem rcLoop_no_wrap {tbl : RTable} {L : List TyV}
    (hL : ∀ t ∈ L, wrappedOf tbl t = none) :
    ∀ pre : List TyV, (∀ t ∈ pre, isAbstractTy tbl t = false) →
      rcLoop tbl L (pre ++ L) =
        .ok (pre ++ L.filter (fun t => !isAbstractTy tbl t)) := by
  induction L with
  | nil => intro pre _; simp [rcLoop]
  | cons t0 L ih =>
    intro pre hpre
    have hw0 : wrappedOf tbl t0 = none := hL t0 (List.mem_cons_self t0 L)
    have hLrest : ∀ t ∈ L, wrappedOf tbl t = none :=
      fun t ht => hL t (List.mem_cons_of_mem t0 ht)
    simp only [rcLoop]
    cases habs : isAbstractTy tbl t0 with
    | true =>
      have hstep : rcStep tbl (pre ++ t0 :: L) t0 = .ok (pre ++ L) := by
        have ht0mem : t0 ∈ pre ++ t0 :: L := by
          simp [List.mem_append]
        have ht0pre : t0 ∉ pre := fun hm => by
          have := hpre t0 hm
          rw [habs] at this
          cases this
        simp only [rcStep, hw0, habs, if_true, ht0mem]
        rw [removeFirst_append_of_not_mem ht0pre]
      rw [hstep]
      show rcLoop tbl L (pre ++ L) = _
      rw [ih hLrest pre hpre]
      simp [List.filter_cons, habs]
    | false =>
      have hstep : rcStep tbl (pre ++ t0 :: L) t0 = .ok (pre ++ t0 :: L) := by
        simp [rcStep, hw0, habs]
      rw [hstep]
      show rcLoop tbl L (pre ++ t0 :: L) = _
      have hpre2 : ∀ t ∈ pre ++ [t0], isAbstractTy tbl t = false := by
        intro t ht
        rcases List.mem_append.mp ht with h1 | h1
        · exact hpre t h1
        · rw [List.mem_singleton.mp h1]; exact habs
      have := ih hLrest (pre ++ [t0]) hpre2
      rw [List.append_assoc, List.singleton_append] at this
      rw [this, List.filter_cons, habs]
      simp

theorem remove_classes_no_wrap {tbl : RTable} {ts : List TyV}
    (hw : ∀ t ∈ ts, wrappedOf tbl t = none) :
    remove_classes tbl ts =
      .ok (dedupFirst (ts.filter (fun t => !isAbstractTy tbl t))) := by
  unfold remove_classes
  have := rcLoop_no_wrap hw [] (by intro t ht; simp at ht)
  rw [List.nil_append] at this
  rw [this]
  rfl

theorem remove_classes_ok_nodup {tbl : RTable} {ts res : List TyV}
    (h : remove_classes tbl ts = .ok res) : res.Nodup := by
  unfold remove_classes at h
  cases hq : rcLoop tbl ts ts with
  | error e => rw [hq] at h; cases h
  | ok q =>
    rw [hq] at h
    cases h
    exact nodup_dedupFirst q

theorem remove_classes_ok_inv {tbl : RTable} {ts res : List TyV}
    (h : remove_classes tbl ts = .ok res) :
    ∃ q, rcLoop tbl ts ts = .ok q ∧ res = dedupFirst q := by
  unfold remove_classes at h
  cases hq : rcLoop tbl ts ts with
  | error e => rw [hq] at h; cases h
  | ok q =>
    rw [hq] at h
    cases h
    exact ⟨q, rfl, rfl⟩

/-! ## Lemmas: `mapME`, `convert_types` -/

theorem mapME_ok_mem {f : α → Except ε β} :
    ∀ {l : List α} {ys : List β}, mapME f l = .ok ys →
      ∀ x ∈ l, ∃ y, f x = .ok y ∧ y ∈ ys := by
  intro l
  induction l with
  | nil => intro ys _ x hx; simp at hx
  | cons a as ih =>
    intro ys h x hx
    simp only [mapME] at h
    cases hfa : f a with
    | error e =>
      rw [hfa] at h
      exact ((Except.error e).noConfusion
        (show (Except.error e : Except ε (List β)) = .ok ys from h))
    | ok y =>
      rw [hfa] at h
      replace h : (mapME f as).bind
        (fun ys2 => Except.ok (y :: ys2)) = Except.ok ys := h
      cases hrest : mapME f as with
      | error e =>
        rw [hrest] at h
        exact ((Except.error e).noConfusion
          (show (Except.error e : Except ε (List β)) = .ok ys from h))
      | ok ys2 =>
        rw [hrest] at h
        replace h : y :: ys2 = ys := by
          cases h; rfl
        subst h
        rcases List.mem_cons.mp hx with h1 | h1
        · exact ⟨y, h1 ▸ hfa, List.mem_cons_self y ys2⟩
        · obtain ⟨y2, hy2, hy2m⟩ := ih hrest x h1
          exact ⟨y2, hy2, List.mem_cons_of_mem y hy2m⟩

theorem mapME_ok_mem_rev {f : α → Except ε β} :
    ∀ {l : List α} {ys : List β}, mapME f l = .ok ys →
      ∀ y ∈ ys, ∃ x ∈ l, f x = .ok y := by
  intro l
  induction l with
  | nil =>
    intro ys h y hy
    simp only [mapME] at h
    cases h
    simp at hy
  | cons a as ih =>
    intro ys h y hy
    simp only [mapME] at h
    cases hfa : f a with
    | error e =>
      rw [hfa] at h
      exact ((Except.error e).noConfusion
        (show (Except.error e : Except ε (List β)) = .ok ys from h))
    | ok y1 =>
      rw [hfa] at h
      replace h : (mapME f as).bind
        (fun ys2 => Except.ok (y1 :: ys2)) = Except.ok ys := h
      cases hrest : mapME f as with
      | error e =>
        rw [hrest] at h
        exact ((Except.error e).noConfusion
          (show (Except.error e : Except ε (List β)) = .ok ys from h))
      | ok ys2 =>
        rw [hrest] at h
        replace h : y1 :: ys2 = ys := by
          cases h; rfl
        subst h
        rcases List.mem_cons.mp hy with h1 | h1
        · exact ⟨a, List.mem_cons_self a as, h1 ▸ hfa⟩
        · obtain ⟨x, hxm, hx⟩ := ih hrest y h1
          exact ⟨x, List.mem_cons_of_mem a hxm, hx⟩

/-- Over a table with no wrappers, `wrappedOf` is `none` everywhere. -/
theorem wrappedOf_none_of_table {tbl : RTable}
    (hnw : ∀ i, (tbl i).wrapped = none) (t : TyV) :
    wrappedOf tbl t = none := by
  cases t <;> simp [wrappedOf, hnw]

theorem convert_types_cls_builtin {tbl : RTable} {n c : Nat}
    (hb : (tbl c).builtin = true) :
    convert_types (n + 1) tbl (.cls c) = .ok [TyV.bare c] := by
  simp [convert_types, hb]

theorem convert_types_cls_inv {tbl : RTable} {n c : Nat} {res : List TyV}
    (hb : (tbl c).builtin = false)
    (h : convert_types (n + 1) tbl (.cls c) = .ok res) :
    ∃ parts,
      mapME (fun s => convert_types n tbl (.cls s)) (tbl c).subs = .ok parts ∧
      remove_classes tbl (TyV.bare c :: parts.flatten) = .ok res := by
  simp only [convert_types, hb, Bool.false_eq_true, if_false] at h
  cases hm : mapME (fun s => convert_types n tbl (.cls s)) (tbl c).subs with
  | error e =>
    rw [hm] at h
    exact ((Except.error e).noConfusion
      (show (Except.error e : Except RErr (List TyV)) = .ok res from h))
  | ok parts =>
    rw [hm] at h
    exact ⟨parts, rfl, h⟩

theorem convert_types_union_inv {tbl : RTable} {n : Nat} {args : List PyAnn}
    {res : List TyV}
    (h : convert_types (n + 1) tbl (.union args) = .ok res) :
    ∃ parts,
      mapME (fun a => do remove_classes tbl (← convert_types n tbl a)) args
        = .ok parts ∧ res = parts.flatten := by
  simp only [convert_types] at h
  cases hm : mapME (fun a => do remove_classes tbl (← convert_types n tbl a))
      args with
  | error e =>
    rw [hm] at h
    exact ((Except.error e).noConfusion
      (show (Except.error e : Except RErr (List TyV)) = .ok res from h))
  | ok parts =>
    rw [hm] at h
    replace h : parts.flatten = res := by
      cases h; rfl
    exact ⟨parts, rfl, h.symm⟩

/-- Reaching `Desc`-reachable concrete subclasses: over a table with no
wrappers, a successful `convert_types` on a plain class contains the
bare type of every reachable non-abstract subclass (the class itself
included, by the reflexive case). -/
theorem convert_types_desc_mem {tbl : RTable}
    (hnw : ∀ i, (tbl i).wrapped = none) :
    ∀ (n c : Nat) (res : List TyV), convert_types n tbl (.cls c) = .ok res →
      ∀ s, Desc tbl c s → (tbl s).abstract = false → TyV.bare s ∈ res := by
  intro n
  induction n with
  | zero =>
    intro c res h
    exact ((Except.error RErr.fuel).noConfusion
      (show (Except.error RErr.fuel : Except RErr (List TyV)) = .ok res from h))
  | succ n ih =>
    intro c res h s hdesc habs
    cases hb : (tbl c).builtin with
    | true =>
      rw [convert_types_cls_builtin hb] at h
      replace h : [TyV.bare c] = res := by cases h; rfl
      subst h
      cases hdesc with
      | refl => exact List.mem_cons_self _ _
      | step hb2 _ _ => rw [hb] at hb2; cases hb2
    | false =>
      obtain ⟨parts, hparts, hrc⟩ := convert_types_cls_inv hb h
      rw [remove_classes_no_wrap
        (fun t _ => wrappedOf_none_of_table hnw t)] at hrc
      replace hrc : dedupFirst
        (List.filter (fun t => !isAbstractTy tbl t)
          (TyV.bare c :: parts.flatten)) = res := by
        cases hrc; rfl
      subst hrc
      cases hdesc with
      | refl =>
        rw [mem_dedupFirst, List.mem_filter]
        refine ⟨List.mem_cons_self _ _, ?_⟩
        simp [isAbstractTy, habs]
      | step hb2 hmem hdesc2 =>
        rename_i s1
        obtain ⟨p, hp, hpmem⟩ := mapME_ok_mem hparts s1 hmem
        have hsin : TyV.bare s ∈ p := ih s1 p hp s hdesc2 habs
        rw [mem_dedupFirst, List.mem_filter]
        constructor
        · exact List.mem_cons_of_mem _ (List.mem_flatten.mpr ⟨p, hpmem, hsin⟩)
        · simp [isAbstractTy, habs]

/-! ## Claim C1 -/

/-- C1 (counterexample): the claim says that when a wrapper `W` (class
1, `__wrapped__` = class 0) and the class `C` it wraps (class 0) both
appear in the resolver's subclass expansion, the resolved set keeps `C`
and drops `W`. On this concrete two-class table — `C` concrete and
non-builtin with sole subclass `W` wrapping it — `convert_types`
returns exactly `[W]`: the wrapped class `C` is the one dropped and the
wrapper `W` is the one kept, the reverse of the claim. -/
theorem claim1_cex :
    ((fun c => if c = 0 then (⟨false, false, none, [1], false, false⟩ : RClassInfo)
               else ⟨false, false, some 0, [], false, false⟩ : RTable) 1).wrapped
        = some 0 ∧
    convert_types 3
      (fun c => if c = 0 then ⟨false, false, none, [1], false, false⟩
                else ⟨false, false, some 0, [], false, false⟩)
      (.cls 0) = .ok [.bare 1] ∧
    TyV.bare 1 ∈ [TyV.bare 1] ∧ TyV.bare 0 ∉ [TyV.bare 1] := by
  refine ⟨rfl, rfl, ?_, ?_⟩ <;> decide

/-- C1 (corrected): what `remove_classes` actually guarantees for a
wrapper/wrapped pair is the mirror image of the claim: when the list
contains a wrapper `W` (`bare w`, with `__wrapped__` = `c`) together
with the wrapped class `bare c`, and the elements are duplicate-free,
none abstract, and nothing in the list wraps `W` itself, then the
result keeps the wrapper `W` and drops the wrapped class `C`. -/
theorem claim1_amended {tbl : RTable} {ts : List TyV} {w c : Nat}
    (hnd : ts.Nodup) (hW : TyV.bare w ∈ ts) (_hC : TyV.bare c ∈ ts)
    (hwrap : (tbl w).wrapped = some c)
    (habs : ∀ t ∈ ts, isAbstractTy tbl t = false)
    (hnoW : ∀ t ∈ ts, wrappedOf tbl t ≠ some w) :
    ∃ res, remove_classes tbl ts = .ok res ∧
      TyV.bare w ∈ res ∧ TyV.bare c ∉ res := by
  obtain ⟨q, hq⟩ := rcLoop_ok_of_no_abstract habs ts
  refine ⟨dedupFirst q, ?_, ?_, ?_⟩
  · unfold remove_classes
    rw [hq]
    rfl
  · rw [mem_dedupFirst]
    refine rcLoop_mem_preserved hq hW (habs _ hW) ?_
    intro t ht w2 hw2 heq
    have : w2 = w := by
      cases heq; rfl
    exact hnoW t ht (this ▸ hw2)
  · rw [mem_dedupFirst]
    exact rcLoop_wrapped_excluded hq hnd hW
      (show wrappedOf tbl (TyV.bare w) = some c by simp [wrappedOf, hwrap])

/-- C1 (witness): the amended statement applied to the concrete
two-element list `[C, W]` with `W` wrapping `C`. -/
theorem claim1_amended_witness :
    ∃ res, remove_classes
      (fun c => if c = 1 then ⟨false, false, some 0, [], false, false⟩
                else ⟨false, false, none, [], false, false⟩)
      [TyV.bare 0, TyV.bare 1] = .ok res ∧
      TyV.bare 1 ∈ res ∧ TyV.bare 0 ∉ res :=
  claim1_amended (w := 1) (c := 0) (by decide) (by decide) (by decide) rfl
    (by decide) (by decide)

/-! ## Claim C3 -/

/-- C3 (counterexample): the claim says a union resolution is
deduplicated across members, so `Union[Base, Sub]` with `Sub` a
subclass of `Base` contains no type twice. On the concrete table with
`Base` = class 0 (sole subclass 1) and `Sub` = class 1, the union
resolves to `[Base, Sub, Sub]`: `Sub` appears twice. -/
theorem claim3_cex :
    convert_types 3
      (fun c => if c = 0 then ⟨false, false, none, [1], false, false⟩
                else ⟨false, false, none, [], false, false⟩)
      (.union [.cls 0, .cls 1]) = .ok [.bare 0, .bare 1, .bare 1] ∧
    List.count (TyV.bare 1) [TyV.bare 0, TyV.bare 1, TyV.bare 1] = 2 := by
  exact ⟨rfl, by decide⟩

/-- C3 (corrected): for a union the resolver recursively resolves each
member, applies `remove_classes` to each member's set (so each member's
set is individually duplicate-free), and returns the plain
concatenation — flattening preserves member order but performs no
union-level deduplication, so a type may appear once per member that
yields it. -/
theorem claim3_amended {tbl : RTable} {n : Nat} {args : List PyAnn}
    {res : List TyV}
    (h : convert_types (n + 1) tbl (.union args) = .ok res) :
    ∃ parts : List (List TyV),
      mapME (fun a => do remove_classes tbl (← convert_types n tbl a)) args
        = .ok parts ∧
      res = parts.flatten ∧ ∀ p ∈ parts, p.Nodup := by
  obtain ⟨parts, hm, hflat⟩ := convert_types_union_inv h
  refine ⟨parts, hm, hflat, ?_⟩
  intro p hp
  obtain ⟨a, _, ha⟩ := mapME_ok_mem_rev hm p hp
  cases hct : convert_types n tbl a with
  | error e =>
    rw [hct] at ha
    exact ((Except.error e).noConfusion
      (show (Except.error e : Except RErr (List TyV)) = .ok p from ha))
  | ok ts =>
    rw [hct] at ha
    replace ha : remove_classes tbl ts = .ok p := ha
    exact remove_classes_ok_nodup ha

/-- C3 (witness): the amended statement at the concrete
`Union[Base, Sub]` instance, whose flattened result carries `Sub`
twice while each member part is duplicate-free. -/
theorem claim3_amended_witness :
    (fun tbl : RTable =>
      ∃ parts : List (List TyV),
        mapME (fun a => do remove_classes tbl (← convert_types 2 tbl a))
          [.cls 0, .cls 1] = .ok parts ∧
        [TyV.bare 0, TyV.bare 1, TyV.bare 1] = parts.flatten ∧
        ∀ p ∈ parts, p.Nodup)
      (fun c => if c = 0 then ⟨false, false, none, [1], false, false⟩
                else ⟨false, false, none, [], false, false⟩) :=
  claim3_amended (n := 2) (by rfl)

/-! ## Claim C8 -/

/-- C8 (counterexample): the claim says every concrete non-builtin
class is contained in its own resolution. On the concrete table where
class 0 is concrete and non-builtin but its sole subclass 1 wraps it,
the resolution of class 0 is `[bare 1]` — the class itself is dropped
by the wrapper rule. -/
theorem claim8_cex :
    ((fun c => if c = 0 then (⟨false, false, none, [1], false, false⟩ : RClassInfo)
               else ⟨false, false, some 0, [], false, false⟩ : RTable) 0).builtin
        = false ∧
    ((fun c => if c = 0 then (⟨false, false, none, [1], false, false⟩ : RClassInfo)
               else ⟨false, false, some 0, [], false, false⟩ : RTable) 0).abstract
        = false ∧
    convert_types 4
      (fun c => if c = 0 then ⟨false, false, none, [1], false, false⟩
                else ⟨false, false, some 0, [], false, false⟩)
      (.cls 0) = .ok [.bare 1] ∧
    TyV.bare 0 ∉ [TyV.bare 1] := by
  refine ⟨rfl, rfl, rfl, ?_⟩
  decide

/-- C8 (corrected): over a class hierarchy recording no `__wrapped__`
attributes, a successful resolution of a concrete non-builtin class `c`
contains `bare c` itself, contains the bare type of every reachable
non-abstract subclass (direct or indirect through non-builtin
parents), and contains no abstract class. -/
theorem claim8_amended {tbl : RTable} {n c : Nat} {res : List TyV}
    (hnw : ∀ i, (tbl i).wrapped = none)
    (hb : (tbl c).builtin = false) (hc : (tbl c).abstract = false)
    (h : convert_types (n + 1) tbl (.cls c) = .ok res) :
    TyV.bare c ∈ res ∧
    (∀ t ∈ res, isAbstractTy tbl t = false) ∧
    (∀ s, Desc tbl c s → (tbl s).abstract = false → TyV.bare s ∈ res) := by
  have hdesc := convert_types_desc_mem hnw (n + 1) c res h
  refine ⟨hdesc c (Desc.refl c) hc, ?_, hdesc⟩
  obtain ⟨parts, _, hrc⟩ := convert_types_cls_inv hb h
  rw [remove_classes_no_wrap
    (fun t _ => wrappedOf_none_of_table hnw t)] at hrc
  replace hrc : dedupFirst
    (List.filter (fun t => !isAbstractTy tbl t)
      (TyV.bare c :: parts.flatten)) = res := by
    cases hrc; rfl
  subst hrc
  intro t ht
  rw [mem_dedupFirst, List.mem_filter] at ht
  simpa using ht.2

/-- C8 (witness): the amended statement on a concrete hierarchy —
class 0 concrete with subclasses 1 (abstract, with concrete subclass 3)
and 2 (concrete): the resolution `[0, 3, 2]` contains the class itself
and the indirectly reachable concrete subclass 3, and no abstract
class. -/
theorem claim8_amended_witness :
    TyV.bare 0 ∈ [TyV.bare 0, TyV.bare 3, TyV.bare 2] ∧
    (∀ t ∈ [TyV.bare 0, TyV.bare 3, TyV.bare 2],
      isAbstractTy
        (fun c => if c = 0 then ⟨false, false, none, [1, 2], false, false⟩
                  else if c = 1 then ⟨false, true, none, [3], false, false⟩
                  else ⟨false, false, none, [], false, false⟩) t = false) ∧
    (∀ s, Desc
        (fun c => if c = 0 then ⟨false, false, none, [1, 2], false, false⟩
                  else if c = 1 then ⟨false, true, none, [3], false, false⟩
                  else ⟨false, false, none, [], false, false⟩) 0 s →
      ((fun c => if c = 0 then (⟨false, false, none, [1, 2], false, false⟩ : RClassInfo)
                 else if c = 1 then ⟨false, true, none, [3], false, false⟩
                 else ⟨false, false, none, [], false, false⟩ : RTable) s).abstract
          = false →
      TyV.bare s ∈ [TyV.bare 0, TyV.bare 3, TyV.bare 2]) :=
  claim8_amended (n := 3)
    (by intro i
        by_cases h0 : i = 0
        · simp [h0]
        · by_cases h1 : i = 1 <;> simp [h0, h1])
    rfl rfl rfl

/-! ## Claim C4 -/

/-- C4 (counterexample): the claim says that when every value in an
`ObjectInfo`'s data mapping is hashable, `hash(x)` equals the hash of
`x.data`, the sentinel appearing only when some contained value is
unhashable. But `self.data` is a Python dict, and a dict is unhashable
regardless of its contents (`dict.__hash__` is `None`), so for the data
mapping `{"a": 1}` — every value hashable — `hash(self.data)` raises
`TypeError` and `__hash__` returns the sentinel `-1`. -/
theorem claim4_cex :
    ¬ (∀ data : List (String × Value),
        (∀ kv ∈ data, (pyHash kv.2).isSome = true) →
        ∃ h, pyHash (Value.vDict data) = some h ∧ ObjectInfo_hash data = h) := by
  intro hcl
  obtain ⟨h, hh, _⟩ := hcl [("a", Value.vInt 1)] (by decide)
  exact Option.noConfusion (show (none : Option Int) = some h from hh)

/-- C4 (corrected): `ObjectInfo.__hash__` tries `hash(self.data)` and
falls back to `-1` on `TypeError`; since `self.data` is a dict — which
Python cannot hash whatever it contains — the memoized hash is the
sentinel `-1` for every `ObjectInfo`, not only those containing an
unhashable value. -/
theorem claim4_amended (data : List (String × Value)) :
    pyHash (Value.vDict data) = none ∧ ObjectInfo_hash data = -1 :=
  ⟨rfl, rfl⟩

/-! ## Round trip: `convert_from_dict` after `convert_to_dict` -/

theorem roundtrip_list {env : CEnv} {n : Nat}
    (ih : ∀ x d, WFTree env x → convert_to_dict env n x = some d →
      convert_from_dict env n d = .ok (x, [])) :
    ∀ xs ys : List Value, (∀ x ∈ xs, WFTree env x) →
      mapMO (fun x => convert_to_dict env n x) xs = some ys →
      cfdList (fun x => convert_from_dict env n x) ys = .ok (xs, []) := by
  intro xs
  induction xs with
  | nil =>
    intro ys _ h
    replace h : some [] = some ys := h
    cases h
    rfl
  | cons x xs ihl =>
    intro ys hwf h
    simp only [mapMO] at h
    cases hx : convert_to_dict env n x with
    | none =>
      rw [hx] at h
      exact Option.noConfusion (show (none : Option (List Value)) = some ys from h)
    | some y =>
      rw [hx] at h
      replace h : (mapMO (fun x => convert_to_dict env n x) xs).bind
        (fun ys2 => some (y :: ys2)) = some ys := h
      cases hrest : mapMO (fun x => convert_to_dict env n x) xs with
      | none =>
        rw [hrest] at h
        exact Option.noConfusion (show (none : Option (List Value)) = some ys from h)
      | some ys2 =>
        rw [hrest] at h
        replace h : y :: ys2 = ys := by cases h; rfl
        subst h
        simp only [cfdList]
        rw [ih x y (hwf x (List.mem_cons_self x xs)) hx,
          ihl ys2 (fun u hu => hwf u (List.mem_cons_of_mem x hu)) hrest]
        rfl

theorem roundtrip_data {env : CEnv} {n : Nat} {cls : Nat}
    (ih : ∀ x d, WFTree env x → convert_to_dict env n x = some d →
      convert_from_dict env n d = .ok (x, [])) :
    ∀ (data ds : List (String × Value)),
      (∀ kv ∈ data, (env.classes cls).annKeys.contains kv.1) →
      (∀ kv ∈ data, WFTree env kv.2) →
      mapMO (fun kv : String × Value => do
        let v2 ← convert_to_dict env n kv.2
        some (kv.1, v2)) data = some ds →
      cfdData (fun k => (env.classes cls).annKeys.contains k)
        (fun x => convert_from_dict env n x) cls ds = .ok (data, []) := by
  intro data
  induction data with
  | nil =>
    intro ds _ _ h
    replace h : some ([] : List (String × Value)) = some ds := h
    cases h
    rfl
  | cons kv data ihd =>
    obtain ⟨k, v⟩ := kv
    intro ds hkeys hwf h
    simp only [mapMO] at h
    cases hx : convert_to_dict env n (k, v).2 with
    | none =>
      rw [hx] at h
      exact Option.noConfusion
        (show (none : Option (List (String × Value))) = some ds from h)
    | some v2 =>
      rw [hx] at h
      replace h : (mapMO (fun kv : String × Value => do
          let v2 ← convert_to_dict env n kv.2
          some (kv.1, v2)) data).bind
        (fun r2 => some ((k, v2) :: r2)) = some ds := h
      cases hrest : mapMO (fun kv : String × Value => do
          let v2 ← convert_to_dict env n kv.2
          some (kv.1, v2)) data with
      | none =>
        rw [hrest] at h
        exact Option.noConfusion
          (show (none : Option (List (String × Value))) = some ds from h)
      | some ds2 =>
        rw [hrest] at h
        replace h : (k, v2) :: ds2 = ds := by cases h; rfl
        subst h
        have hk : (env.classes cls).annKeys.contains k = true :=
          hkeys (k, v) (List.mem_cons_self _ _)
        simp only [cfdData, hk, if_true]
        rw [ih v v2 (hwf (k, v) (List.mem_cons_self _ _)) hx,
          ihd ds2 (fun u hu => hkeys u (List.mem_cons_of_mem (k, v) hu))
            (fun u hu => hwf u (List.mem_cons_of_mem (k, v) hu)) hrest]
        rfl

/-- The fuelled round trip: whenever the encoder succeeds on a
well-formed tree, the decoder at the same fuel recovers the tree
exactly — class, data (entries and order), and nickname — emitting no
warnings. -/
theorem roundtrip_level {env : CEnv} :
    ∀ (n : Nat) (x d : Value), WFTree env x → convert_to_dict env n x = some d →
      convert_from_dict env n d = .ok (x, []) := by
  intro n
  induction n with
  | zero =>
    intro x d _ h
    exact Option.noConfusion (show (none : Option Value) = some d from h)
  | succ n ih =>
    intro x d hwf h
    cases hwf with
    | wfNone =>
      replace h : some Value.vNone = some d := h
      cases h
      rfl
    | wfBool b =>
      replace h : some (Value.vBool b) = some d := h
      cases h
      rfl
    | wfInt k =>
      replace h : some (Value.vInt k) = some d := h
      cases h
      rfl
    | wfFloat q =>
      replace h : some (Value.vFloat q) = some d := h
      cases h
      rfl
    | wfDecimal q =>
      replace h : some (Value.vDecimal q) = some d := h
      cases h
      rfl
    | wfStr s =>
      replace h : some (Value.vStr s) = some d := h
      cases h
      rfl
    | wfEnum cls v himp =>
      replace h : some (Value.vDict
        [("type", Value.vStr (env.classes cls).qualname), ("value", v)])
          = some d := h
      cases h
      have hshape : convert_from_dict env (n + 1) (Value.vDict
          [("type", Value.vStr (env.classes cls).qualname), ("value", v)]) =
        (match importClass env (env.classes cls).qualname with
         | none => Except.error DErr.importErr
         | some cls2 => Except.ok (callOneArg cls2 v, [])) := rfl
      rw [hshape, himp]
      rfl
    | wfList xs hwfxs =>
      simp only [convert_to_dict] at h
      cases hys : mapMO (fun x => convert_to_dict env n x) xs with
      | none =>
        rw [hys] at h
        exact Option.noConfusion (show (none : Option Value) = some d from h)
      | some ys =>
        rw [hys] at h
        replace h : Value.vList ys = d := by cases h; rfl
        subst h
        have hl := roundtrip_list ih xs ys hwfxs hys
        simp only [convert_from_dict]
        rw [hl]
        rfl
    | wfObjInfo cls data nick himp hkeys hwfd =>
      simp only [convert_to_dict] at h
      cases hds : mapMO (fun kv : String × Value => do
          let v2 ← convert_to_dict env n kv.2
          some (kv.1, v2)) data with
      | none =>
        rw [hds] at h
        exact Option.noConfusion (show (none : Option Value) = some d from h)
      | some ds =>
        rw [hds] at h
        replace h : Value.vDict
          [("type", Value.vStr (env.classes cls).qualname),
           ("data", Value.vDict ds), ("nickname", nickVal nick)] = d := by
          cases h; rfl
        subst h
        have hshape : convert_from_dict env (n + 1) (Value.vDict
            [("type", Value.vStr (env.classes cls).qualname),
             ("data", Value.vDict ds), ("nickname", nickVal nick)]) =
          (match importClass env (env.classes cls).qualname with
           | none => Except.error DErr.importErr
           | some cls2 =>
              (cfdData (fun k => (env.classes cls2).annKeys.contains k)
                (fun x => convert_from_dict env n x) cls2 ds).bind
                (fun r => Except.ok (Value.vObjectInfo cls2 r.1
                  (decodeNick
                    [("type", Value.vStr (env.classes cls).qualname),
                     ("data", Value.vDict ds),
                     ("nickname", nickVal nick)]), r.2))) := rfl
        have hshape2 : convert_from_dict env (n + 1) (Value.vDict
            [("type", Value.vStr (env.classes cls).qualname),
             ("data", Value.vDict ds), ("nickname", nickVal nick)]) =
          (cfdData (fun k => (env.classes cls).annKeys.contains k)
            (fun x => convert_from_dict env n x) cls ds).bind
            (fun r => Except.ok (Value.vObjectInfo cls r.1
              (decodeNick
                [("type", Value.vStr (env.classes cls).qualname),
                 ("data", Value.vDict ds),
                 ("nickname", nickVal nick)]), r.2)) := by
          rw [hshape, himp]
        rw [hshape2]
        rw [roundtrip_data ih data ds hkeys hwfd hds]
        have hnick : decodeNick
            [("type", Value.vStr (env.classes cls).qualname),
             ("data", Value.vDict ds), ("nickname", nickVal nick)] = nick := by
          cases nick <;> rfl
        rw [hnick]
        rfl

/-! ## Claim C2 -/

/-- C2 (counterexample): the claim states the round trip for every
tree built from `ObjectInfo`/primitives/enums/sequences, but a tree
whose `ObjectInfo` node carries a data key absent from the class's
current annotations is such a tree and does not round-trip: the decoder
drops the key with a warning. Concretely, with class 0 annotated with
key `"a"` only, the tree `ObjectInfo(cls 0, {"ghost": 1})` encodes
fine, yet decodes to `ObjectInfo(cls 0, {})` plus one warning — not
equal to the original. -/
theorem claim2_cex :
    (fun env : CEnv =>
      convert_to_dict env 3 (.vObjectInfo 0 [("ghost", .vInt 1)] none) =
        some (.vDict [("type", .vStr "m.C"),
                      ("data", .vDict [("ghost", .vInt 1)]),
                      ("nickname", .vNone)]) ∧
      convert_from_dict env 3
        (.vDict [("type", .vStr "m.C"),
                 ("data", .vDict [("ghost", .vInt 1)]),
                 ("nickname", .vNone)]) =
        .ok (.vObjectInfo 0 [] none, [("ghost", 0)]) ∧
      (Value.vObjectInfo 0 [] none ≠ Value.vObjectInfo 0 [("ghost", .vInt 1)] none))
    ⟨fun _ => ⟨"m.C", false, ["a"], false, some 1⟩, [("m.C", 0)],
      fun _ => none, fun _ _ => none, 99⟩ := by
  refine ⟨rfl, rfl, ?_⟩
  simp

/-- C2 (corrected): `convert_from_dict` after `convert_to_dict` is the
identity — class, data entries in order, and nickname all preserved,
with no warnings emitted — for every tree built from primitives, enum
members, lists and `ObjectInfo` nodes, *provided* every data key of
every node is present in its class's current annotations and every
mentioned class is recovered by `import_class` from its qualified name
(the `WFTree` hypothesis); the fuel hypothesis is the encoder's own
success. Without the key condition the decoder drops keys (claim C5's
warn-and-drop path), which is the counterexample. -/
theorem claim2_amended {env : CEnv} {n : Nat} {x d : Value}
    (hwf : WFTree env x) (h : convert_to_dict env n x = some d) :
    convert_from_dict env n d = .ok (x, []) :=
  roundtrip_level n x d hwf h

/-- C2 (witness): the amended round trip on a concrete nested tree —
an `ObjectInfo` with a scalar field, a list field containing an enum
member, and a nickname. -/
theorem claim2_amended_witness :
    (fun env : CEnv =>
      convert_from_dict env 6
        (.vDict [("type", .vStr "m.C"),
                 ("data", .vDict
                   [("a", .vInt 3),
                    ("b", .vList [.vDict [("type", .vStr "m.E"),
                                          ("value", .vInt 2)]])]),
                 ("nickname", .vStr "nick")]) =
        .ok (.vObjectInfo 0
          [("a", .vInt 3), ("b", .vList [.vEnum 1 (.vInt 2)])]
          (some "nick"), []))
    ⟨fun c => if c = 0 then ⟨"m.C", false, ["a", "b"], false, some 2⟩
              else ⟨"m.E", true, [], false, some 1⟩,
     [("m.C", 0), ("m.E", 1)], fun _ => none, fun _ _ => none, 99⟩ := by
  refine claim2_amended ?_ rfl
  refine WFTree.wfObjInfo 0 _ _ rfl (by decide) ?_
  intro kv hkv
  rcases List.mem_cons.mp hkv with h1 | h1
  · cases h1
    exact WFTree.wfInt 3
  · rcases List.mem_cons.mp h1 with h2 | h2
    · cases h2
      refine WFTree.wfList _ ?_
      intro x hx
      rcases List.mem_cons.mp hx with h3 | h3
      · cases h3
        exact WFTree.wfEnum 1 _ rfl
      · simp at h3
    · simp at h2

/-! ## Claim C5 -/

theorem fromDict_raw {env : CEnv} {n : Nat} {v : Value}
    (hr : rawPass v = true) :
    convert_from_dict env (n + 1) v = .ok (v, []) := by
  cases v <;> first
    | rfl
    | simp [rawPass] at hr

/-- The warn-and-drop loop on a data dict all of whose keys are either
the ghost key `g` (absent from the annotations) or an annotated key
carrying a pass-through value: the loop succeeds, keeps no `g` entry,
and emits one `(g, cls)` warning per `g` occurrence. -/
theorem cfdData_ghost {env : CEnv} {cls : Nat} {g : String} {n : Nat}
    (hg : (env.classes cls).annKeys.contains g = false) :
    ∀ entries : List (String × Value),
      (∀ kv ∈ entries, kv.1 = g ∨
        ((env.classes cls).annKeys.contains kv.1 = true ∧ rawPass kv.2 = true)) →
      ∃ res ws,
        cfdData (fun k => (env.classes cls).annKeys.contains k)
          (fun x => convert_from_dict env (n + 1) x) cls entries = .ok (res, ws) ∧
        (∀ kv ∈ res, kv.1 ≠ g) ∧
        List.count ((g, cls) : Warn) ws =
          List.count g (entries.map Prod.fst) := by
  intro entries
  induction entries with
  | nil => exact fun _ => ⟨[], [], rfl, by simp, by simp⟩
  | cons kv entries ih =>
    obtain ⟨k, v⟩ := kv
    intro hvals
    obtain ⟨res, ws, hloop, hres, hcount⟩ :=
      ih (fun u hu => hvals u (List.mem_cons_of_mem (k, v) hu))
    rcases hvals (k, v) (List.mem_cons_self _ _) with hk | ⟨hk, hraw⟩
    · subst hk
      refine ⟨res, ((k : String), cls) :: ws, ?_, hres, ?_⟩
      · simp only [cfdData, hg, Bool.false_eq_true, if_false]
        rw [hloop]
        rfl
      · simp only [List.map_cons, List.count_cons]
        rw [hcount]
        simp
    · have hkg : k ≠ g := fun he => by
        rw [he, hg] at hk
        cases hk
      refine ⟨(k, v) :: res, ws, ?_, ?_, ?_⟩
      · simp only [cfdData, hk, if_true]
        rw [fromDict_raw hraw, hloop]
        rfl
      · intro u hu
        rcases List.mem_cons.mp hu with h1 | h1
        · rw [h1]; exact hkg
        · exact hres u h1
      · simp only [List.map_cons, List.count_cons]
        rw [hcount]
        simp only [beq_iff_eq]
        have hne : ¬ (g = k) := fun he => hkg he.symm
        simp [hne]
        exact hkg

/-- C5 (confirmed): decoding an encoded dict for class `cls` whose data
carries a ghost key `g` absent from the class's current annotations —
the other entries being annotated keys with pass-through (scalar-like)
values — succeeds without raising, returns an `ObjectInfo` whose data
omits `g`, and emits exactly one warning naming `g` and the class. -/
theorem claim5_thm {env : CEnv} {cls : Nat} {ts g : String}
    {entries : List (String × Value)} {nk : Value} {n : Nat}
    (himp : importClass env ts = some cls)
    (hg : (env.classes cls).annKeys.contains g = false)
    (hcount : List.count g (entries.map Prod.fst) = 1)
    (hvals : ∀ kv ∈ entries, kv.1 = g ∨
      ((env.classes cls).annKeys.contains kv.1 = true ∧ rawPass kv.2 = true)) :
    ∃ res ws nk2,
      convert_from_dict env (n + 2)
        (.vDict [("type", .vStr ts), ("data", .vDict entries),
                 ("nickname", nk)]) =
        .ok (.vObjectInfo cls res nk2, ws) ∧
      (∀ kv ∈ res, kv.1 ≠ g) ∧
      List.count ((g, cls) : Warn) ws = 1 := by
  obtain ⟨res, ws, hloop, hres, hc⟩ := cfdData_ghost hg entries hvals
  refine ⟨res, ws,
    decodeNick [("type", .vStr ts), ("data", .vDict entries),
      ("nickname", nk)], ?_, hres, ?_⟩
  · have hshape : convert_from_dict env (n + 2)
        (.vDict [("type", .vStr ts), ("data", .vDict entries),
                 ("nickname", nk)]) =
      (match importClass env ts with
       | none => Except.error DErr.importErr
       | some cls2 =>
          (cfdData (fun k => (env.classes cls2).annKeys.contains k)
            (fun x => convert_from_dict env (n + 1) x) cls2 entries).bind
            (fun r => Except.ok (Value.vObjectInfo cls2 r.1
              (decodeNick [("type", .vStr ts), ("data", .vDict entries),
                ("nickname", nk)]), r.2))) := rfl
    rw [hshape, himp]
    show (cfdData (fun k => (env.classes cls).annKeys.contains k)
      (fun x => convert_from_dict env (n + 1) x) cls entries).bind _ = _
    rw [hloop]
    rfl
  · rw [hc, hcount]

/-- C5 (witness): the theorem at the concrete scenario of the spec — a
template for class 0 (annotated keys `"a"` only) carrying the extra
key `"ghost_field"`: one warning, key dropped, no failure. -/
theorem claim5_witness :
    (fun env : CEnv =>
      ∃ res ws nk2,
        convert_from_dict env 5
          (.vDict [("type", .vStr "m.C"),
                   ("data", .vDict [("a", .vInt 7), ("ghost_field", .vInt 1)]),
                   ("nickname", .vNone)]) =
          .ok (.vObjectInfo 0 res nk2, ws) ∧
        (∀ kv ∈ res, kv.1 ≠ "ghost_field") ∧
        List.count (("ghost_field", 0) : Warn) ws = 1)
    ⟨fun _ => ⟨"m.C", false, ["a"], false, some 1⟩, [("m.C", 0)],
      fun _ => none, fun _ _ => none, 99⟩ :=
  claim5_thm (n := 3) rfl rfl (by decide) (by decide)

/-! ## Claim C9 -/

/-- C9 (confirmed): `convert_to_object_info` maps a `decimal.Decimal`
value to `float(object_)` — the `float` carrying the same number — not
the `Decimal` unchanged (convert.py, lines 326-330). -/
theorem claim9_thm (env : CEnv) (heap : Heap) (n : Nat) (q : ℚ) :
    convert_to_object_info env heap (n + 1) (.vDecimal q) = some (.vFloat q) :=
  rfl

/-! ## Claim C10 -/

/-- C10 (confirmed): on a tuple or a set, both `convert_to_object_info`
and `convert_to_objects` return a plain list of the converted elements
— the original container kind is never preserved (convert.py, lines
332-334 and 379-380). -/
theorem claim10_thm (env : CEnv) (heap : Heap) (n : Nat) (xs : List Value) :
    (∀ res, convert_to_object_info env heap (n + 1) (.vTuple xs) = some res →
      ∃ ys, mapMO (fun x => convert_to_object_info env heap n x) xs = some ys ∧
        res = .vList ys) ∧
    (∀ res, convert_to_object_info env heap (n + 1) (.vSet xs) = some res →
      ∃ ys, mapMO (fun x => convert_to_object_info env heap n x) xs = some ys ∧
        res = .vList ys) ∧
    (∀ res, convert_to_objects env (n + 1) (.vTuple xs) = .ok res →
      ∃ ys, mapME (fun x => convert_to_objects env n x) xs = .ok ys ∧
        res = .vList ys) ∧
    (∀ res, convert_to_objects env (n + 1) (.vSet xs) = .ok res →
      ∃ ys, mapME (fun x => convert_to_objects env n x) xs = .ok ys ∧
        res = .vList ys) := by
  refine ⟨?_, ?_, ?_, ?_⟩
  · intro res h
    simp only [convert_to_object_info] at h
    cases hm : mapMO (fun x => convert_to_object_info env heap n x) xs with
    | none =>
      rw [hm] at h
      exact Option.noConfusion (show (none : Option Value) = some res from h)
    | some ys =>
      rw [hm] at h
      replace h : Value.vList ys = res := by cases h; rfl
      exact ⟨ys, rfl, h.symm⟩
  · intro res h
    simp only [convert_to_object_info] at h
    cases hm : mapMO (fun x => convert_to_object_info env heap n x) xs with
    | none =>
      rw [hm] at h
      exact Option.noConfusion (show (none : Option Value) = some res from h)
    | some ys =>
      rw [hm] at h
      replace h : Value.vList ys = res := by cases h; rfl
      exact ⟨ys, rfl, h.symm⟩
  · intro res h
    simp only [convert_to_objects] at h
    cases hm : mapME (fun x => convert_to_objects env n x) xs with
    | error e =>
      rw [hm] at h
      exact ((Except.error e).noConfusion
        (show (Except.error e : Except CoErr Value) = .ok res from h))
    | ok ys =>
      rw [hm] at h
      replace h : Value.vList ys = res := by cases h; rfl
      exact ⟨ys, rfl, h.symm⟩
  · intro res h
    simp only [convert_to_objects] at h
    cases hm : mapME (fun x => convert_to_objects env n x) xs with
    | error e =>
      rw [hm] at h
      exact ((Except.error e).noConfusion
        (show (Except.error e : Except CoErr Value) = .ok res from h))
    | ok ys =>
      rw [hm] at h
      replace h : Value.vList ys = res := by cases h; rfl
      exact ⟨ys, rfl, h.symm⟩

/-- C10 (witness): the theorem applied to the concrete one-element
tuple and set, whose conversions evaluate to plain lists. -/
theorem claim10_witness :
    (fun env : CEnv =>
      (∃ ys, mapMO (fun x => convert_to_object_info env [] 1 x) [.vInt 5]
          = some ys ∧ (Value.vList [Value.vInt 5]) = .vList ys) ∧
      (∃ ys, mapME (fun x => convert_to_objects env 1 x) [.vInt 5]
          = .ok ys ∧ (Value.vList [Value.vInt 5]) = .vList ys))
    ⟨fun _ => ⟨"m.X", false, [], false, none⟩, [], fun _ => none,
      fun _ _ => none, 0⟩ :=
  ⟨(claim10_thm _ [] 1 [.vInt 5]).1 (Value.vList [Value.vInt 5]) rfl,
   (claim10_thm _ [] 1 [.vInt 5]).2.2.2 (Value.vList [Value.vInt 5]) rfl⟩

/-! ## Claim C7 -/

theorem scalar_conv {env : CEnv} {heap : Heap} {n : Nat} {v : Value}
    (h : scalarPass v = true) :
    ∃ v2, convert_to_object_info env heap (n + 1) v = some v2 := by
  cases v <;> first
    | exact ⟨_, rfl⟩
    | simp [scalarPass] at h

theorem scalar_no_skip {env : CEnv} {heap : Heap} {v : Value}
    (h : scalarPass v = true) :
    typeSkipSingleton env heap v = false := by
  cases v <;> first
    | rfl
    | simp [scalarPass] at h

theorem scalar_not_obj {v : Value} (h : scalarPass v = true) (j : Nat) :
    v ≠ .vObj j := by
  cases v <;> simp [scalarPass] at h ⊢

/-- Running the attribute loop when every readable value is either the
object itself or a scenario scalar: the loop terminates with a data
mapping in which every self-read attribute stores the raw reference. -/
theorem ctoiAttrLoop_total {env : CEnv} {heap : Heap} {i : Nat} {n : Nat}
    {read : ConvSrc → Option Value}
    (hskipself : typeSkipSingleton env heap (.vObj i) = false) :
    ∀ rules : List (String × ConvSrc),
      (∀ ksrc ∈ rules, ∀ v, read ksrc.2 = some v →
        v = .vObj i ∨ scalarPass v = true) →
      ∃ data,
        ctoiAttrLoop i read (typeSkipSingleton env heap)
          (fun v => convert_to_object_info env heap (n + 1) v) rules
          = some data ∧
        (∀ ksrc ∈ rules, read ksrc.2 = some (.vObj i) →
          (ksrc.1, Value.vObj i) ∈ data) := by
  intro rules
  induction rules with
  | nil => exact fun _ => ⟨[], rfl, by simp⟩
  | cons ksrc0 rest ih =>
    obtain ⟨k, src⟩ := ksrc0
    intro hvals
    obtain ⟨data, hloop, hmem⟩ :=
      ih (fun u hu => hvals u (List.mem_cons_of_mem (k, src) hu))
    cases hr : read src with
    | none =>
      refine ⟨data, ?_, ?_⟩
      · simp only [ctoiAttrLoop, hr]
        exact hloop
      · intro u hu hread
        rcases List.mem_cons.mp hu with h1 | h1
        · subst h1
          exact Option.noConfusion (hr.symm.trans hread)
        · exact hmem u h1 hread
    | some v =>
      rcases hvals (k, src) (List.mem_cons_self _ _) v hr with hself | hscal
      · subst hself
        refine ⟨(k, Value.vObj i) :: data, ?_, ?_⟩
        · simp only [ctoiAttrLoop, hr, hskipself, Bool.false_eq_true, if_false]
          rw [if_pos trivial, hloop]
          rfl
        · intro u hu hread
          rcases List.mem_cons.mp hu with h1 | h1
          · subst h1
            exact List.mem_cons_self _ _
          · exact List.mem_cons_of_mem _ (hmem u h1 hread)
      · obtain ⟨v2, hv2⟩ := @scalar_conv env heap n v hscal
        have hnoskip := @scalar_no_skip env heap v hscal
        have step : ctoiAttrLoop i read (typeSkipSingleton env heap)
            (fun v => convert_to_object_info env heap (n + 1) v)
            ((k, src) :: rest) = some ((k, v2) :: data) := by
          cases v with
          | vObj j => exact absurd rfl (scalar_not_obj hscal j)
          | vNone =>
            simp only [ctoiAttrLoop, hr, hnoskip, Bool.false_eq_true, if_false]
            rw [hv2, hloop]
            rfl
          | vBool b =>
            simp only [ctoiAttrLoop, hr, hnoskip, Bool.false_eq_true, if_false]
            rw [hv2, hloop]
            rfl
          | vInt m =>
            simp only [ctoiAttrLoop, hr, hnoskip, Bool.false_eq_true, if_false]
            rw [hv2, hloop]
            rfl
          | vFloat q =>
            simp only [ctoiAttrLoop, hr, hnoskip, Bool.false_eq_true, if_false]
            rw [hv2, hloop]
            rfl
          | vDecimal q =>
            simp only [ctoiAttrLoop, hr, hnoskip, Bool.false_eq_true, if_false]
            rw [hv2, hloop]
            rfl
          | vStr t =>
            simp only [ctoiAttrLoop, hr, hnoskip, Bool.false_eq_true, if_false]
            rw [hv2, hloop]
            rfl
          | vEnum c w => simp [scalarPass] at hscal
          | vList ws => simp [scalarPass] at hscal
          | vTuple ws => simp [scalarPass] at hscal
          | vSet ws => simp [scalarPass] at hscal
          | vDict es => simp [scalarPass] at hscal
          | vObjectInfo c d2 nk => simp [scalarPass] at hscal
        refine ⟨(k, v2) :: data, step, ?_⟩
        intro u hu hread
        rcases List.mem_cons.mp hu with h1 | h1
        · subst h1
          rw [hr] at hread
          have hvv : v = Value.vObj i := Option.some.inj hread
          exact absurd hvv (fun he =>
            (scalar_not_obj hscal i) he)
        · exact List.mem_cons_of_mem _ (hmem u h1 hread)

/-- C7 (confirmed): decomposing an object whose attribute reads yield
only the object itself or scenario scalars terminates (a bounded fuel
suffices, where exhausted fuel models nontermination) and stores the
raw reference — not a nested `ObjectInfo` — for every self-read
attribute. The hypotheses state the scenario: the object lives at heap
slot `i`, its conversion rules are registered as `rules`, its own type
is not singleton-skipped, and every readable attribute value is the
object itself or a scalar. -/
theorem claim7_thm {env : CEnv} {heap : Heap} {i : Nat} {o : PyObj}
    {rules : List (String × ConvSrc)} {n : Nat}
    (hheap : heap[i]? = some o)
    (hrules : env.convRules o.cls = some rules)
    (hskipself : typeSkipSingleton env heap (.vObj i) = false)
    (hreads : ∀ ksrc ∈ eraseKey "return" rules, ∀ v,
      readSrc o i ksrc.2 = some v → v = .vObj i ∨ scalarPass v = true) :
    ∃ data,
      convert_to_object_info env heap (n + 2) (.vObj i) =
        some (.vObjectInfo o.cls data none) ∧
      (∀ ksrc ∈ eraseKey "return" rules,
        readSrc o i ksrc.2 = some (.vObj i) →
        (ksrc.1, Value.vObj i) ∈ data) := by
  obtain ⟨data, hloop, hmem⟩ :=
    ctoiAttrLoop_total (n := n) hskipself (eraseKey "return" rules) hreads
  refine ⟨data, ?_, hmem⟩
  have hstep : convert_to_object_info env heap (n + 2) (.vObj i) =
      (match heap[i]? with
       | none => none
       | some o2 =>
          (ctoiAttrLoop i (readSrc o2 i) (typeSkipSingleton env heap)
            (fun v => convert_to_object_info env heap (n + 1) v)
            (eraseKey "return"
              (match env.convRules o2.cls with
               | some m => m
               | none => (env.classes o2.cls).annKeys.map
                   (fun k => (k, ConvSrc.attr k))))).map
            (fun dataC => Value.vObjectInfo o2.cls dataC none)) := rfl
  rw [hstep, hheap]
  show (ctoiAttrLoop i (readSrc o i) (typeSkipSingleton env heap)
      (fun v => convert_to_object_info env heap (n + 1) v)
      (eraseKey "return"
        (match env.convRules o.cls with
         | some m => m
         | none => (env.classes o.cls).annKeys.map
             (fun k => (k, ConvSrc.attr k))))).map
      (fun dataC => Value.vObjectInfo o.cls dataC none) =
    some (Value.vObjectInfo o.cls data none)
  rw [hrules]
  show (ctoiAttrLoop i (readSrc o i) (typeSkipSingleton env heap)
      (fun v => convert_to_object_info env heap (n + 1) v)
      (eraseKey "return" rules)).map
      (fun dataC => Value.vObjectInfo o.cls dataC none) =
    some (Value.vObjectInfo o.cls data none)
  rw [hloop]
  rfl

/-- C7 (witness): the scenario of the spec — an object whose `parent`
attribute is the object itself and whose `x` attribute is a scalar —
decomposed with the raw self-reference stored under `parent`. -/
theorem claim7_witness :
    (fun env : CEnv => fun heap : Heap =>
      ∃ data,
        convert_to_object_info env heap 2 (.vObj 0) =
          some (.vObjectInfo 2 data none) ∧
        (∀ ksrc ∈ eraseKey "return"
            [("parent", ConvSrc.attr "parent"), ("x", ConvSrc.attr "x")],
          readSrc ⟨2, [("parent", .vObj 0), ("x", .vInt 5)]⟩ 0 ksrc.2
            = some (.vObj 0) →
          (ksrc.1, Value.vObj 0) ∈ data))
    ⟨fun _ => ⟨"m.X", false, ["parent", "x"], false, some 2⟩, [],
      fun c => if c = 2 then
        some [("parent", ConvSrc.attr "parent"), ("x", ConvSrc.attr "x")]
      else none,
      fun _ _ => none, 99⟩
    [⟨2, [("parent", .vObj 0), ("x", .vInt 5)]⟩] :=
  by
  refine claim7_thm (n := 0)
    (o := ⟨2, [("parent", .vObj 0), ("x", .vInt 5)]⟩) rfl rfl rfl ?_
  intro ksrc hk v hread
  rcases List.mem_cons.mp hk with h1 | h1
  · subst h1
    left
    exact (Option.some.inj hread).symm
  · rcases List.mem_cons.mp h1 with h2 | h2
    · subst h2
      right
      rw [show readSrc ⟨2, [("parent", Value.vObj 0), ("x", Value.vInt 5)]⟩
        0 (ConvSrc.attr "x") = some (Value.vInt 5) from rfl] at hread
      rw [← Option.some.inj hread]
      rfl
    · exact absurd h2 (List.not_mem_nil ksrc)

/-! ## Claim C6 -/

theorem castGo_all_fail {env : CEnv} {heap : Heap} {n : Nat} {value : Value} :
    ∀ bs : List PyTy, (∀ t ∈ bs, castCall env heap n t value = none) →
      cast_type.go env heap n value bs =
        .error "Could not convert value to any of accepted types." := by
  intro bs
  induction bs with
  | nil => intro _; rfl
  | cons t bs ih =>
    intro hall
    simp only [cast_type.go, hall t (List.mem_cons_self t bs)]
    exact ih (fun u hu => hall u (List.mem_cons_of_mem t hu))

theorem castGo_first {env : CEnv} {heap : Heap} {n : Nat} {value : Value}
    {t : PyTy} {v2 : Value} (ht : castCall env heap n t value = some v2) :
    ∀ bs : List PyTy, (∀ u ∈ bs, castCall env heap n u value = none) →
      ∀ rest : List PyTy,
        cast_type.go env heap n value (bs ++ t :: rest) = .ok v2 := by
  intro bs
  induction bs with
  | nil =>
    intro _ rest
    simp only [List.nil_append, cast_type.go, ht]
  | cons b bs ih =>
    intro hall rest
    simp only [List.cons_append, cast_type.go,
      hall b (List.mem_cons_self b bs)]
    exact ih (fun u hu => hall u (List.mem_cons_of_mem b hu)) rest

/-- C6 (confirmed): `cast_type` tries the builtin candidates'
constructors in candidate order and returns the first success —
concretely `cast_type("5", [int, str])` is the integer 5 (`int` tried
before `str`) — and raises `TypeError` when no builtin candidate
accepts the value (non-builtin candidates are filtered out before any
attempt, per `t.__module__ == "builtins"`). -/
theorem claim6_thm (env : CEnv) (heap : Heap) (n : Nat) (value : Value) :
    (cast_type env heap n (.vStr "5") [.intT, .strT] = .ok (.vInt 5)) ∧
    (∀ (l1 l2 : List PyTy) (t : PyTy) (v2 : Value),
      (∀ u ∈ l1, pyTyBuiltin u = true → castCall env heap n u value = none) →
      pyTyBuiltin t = true → castCall env heap n t value = some v2 →
      cast_type env heap n value (l1 ++ t :: l2) = .ok v2) ∧
    (∀ ts : List PyTy,
      (∀ u ∈ ts, pyTyBuiltin u = true → castCall env heap n u value = none) →
      cast_type env heap n value ts =
        .error "Could not convert value to any of accepted types.") := by
  refine ⟨rfl, ?_, ?_⟩
  · intro l1 l2 t v2 hl1 hbt hcast
    unfold cast_type
    rw [List.filter_append, List.filter_cons, if_pos hbt]
    refine castGo_first hcast (List.filter pyTyBuiltin l1) ?_ _
    intro u hu
    have := List.mem_filter.mp hu
    exact hl1 u this.1 this.2
  · intro ts hall
    unfold cast_type
    refine castGo_all_fail (List.filter pyTyBuiltin ts) ?_
    intro u hu
    have := List.mem_filter.mp hu
    exact hall u this.1 this.2

/-- C6 (witness): the theorem's order statement applied at the spec's
concrete scenario (input `"5"`, candidates `[int, str]`, result the
integer 5 — derived through the first-success clause with an empty
failing prefix), and the failure clause at input `"abc"` with
candidates `[custom, int, float]`, none of which accepts it. -/
theorem claim6_witness :
    (fun env : CEnv =>
      cast_type env [] 1 (.vStr "5") ([] ++ PyTy.intT :: [PyTy.strT])
        = .ok (.vInt 5) ∧
      cast_type env [] 1 (.vStr "abc") [.customT 7, .intT, .floatT] =
        .error "Could not convert value to any of accepted types.")
    ⟨fun _ => ⟨"m.X", false, [], false, none⟩, [], fun _ => none,
      fun _ _ => none, 0⟩ :=
  ⟨(claim6_thm _ [] 1 (.vStr "5")).2.1 [] [PyTy.strT] PyTy.intT (.vInt 5)
      (by simp) rfl rfl,
   (claim6_thm _ [] 1 (.vStr "abc")).2.2 [.customT 7, .intT, .floatT]
      (by
        intro u hu _
        rcases List.mem_cons.mp hu with rfl | h1
        · rfl
        · rcases List.mem_cons.mp h1 with rfl | h2
          · rfl
          · rcases List.mem_cons.mp h2 with rfl | h3
            · rfl
            · simp at h3)⟩

end TkWiz
